import Mathlib

/-!
# Food Web Analyzer: the graph mutation engine

A shallow embedding of `src/main.c`.  The heap-allocated array `Org* web` with its
length `numOrgs` is a `List Org`; the `int* prey` array with its length `numPrey` is a
`List Int` (a NULL `prey` pointer and `numPrey == 0` are both the empty list, a NULL
`web` pointer and `numOrgs == 0` are both the empty web).  C `int` values are `Int`;
no operation of the engine can overflow on indices that are positions of a list.
A name is a `String`, the characters of a C string before its terminator.  The field
`char name[20]` holds a name of at most 19 bytes: `addOrgToWeb` is the call on such a
name, and `addOrgToWebArg` the call on any `char*` argument, with the unchecked `strcpy`
of line 56 made explicit.

Functions that write through `Org**` / `int*` return the new web next to their
`bool` return value.  `addOrgToWeb` and `addRelationToWeb` use the result of `malloc`
unchecked, so they are modelled with the block obtained; `removeOrgFromWeb` checks both
of its allocations, and its model takes their outcomes as the argument `Malloc`.
-/

namespace FoodWeb

/-- Struct `Org`: a species with the indices of the organisms it eats. -/
structure Org where
  name : String
  prey : List Int
deriving DecidableEq, Repr

/-- Outcomes of the `malloc` calls made by `removeOrgFromWeb`.  `web` tells whether
the block for the shrunk `Org` array is obtained (line 155).  `arr i` is the outcome
of the `malloc` made for the node at loop position `i` of the renumbering pass
(line 222): `none` is a NULL return, `some c` a block whose cell `k` holds the
indeterminate value `c k` until it is written. -/
structure Malloc where
  web : Bool
  arr : Nat → Option (Nat → Int)

/-- Every allocation of the renumbering pass is obtained. -/
def Malloc.arrOk (m : Malloc) : Prop := ∀ i, (m.arr i).isSome = true

/-- Every allocation of `removeOrgFromWeb` is obtained. -/
def Malloc.allOk (m : Malloc) : Prop := m.web = true ∧ m.arrOk

/-- An allocator that never fails and hands out zeroed blocks. -/
def Malloc.zeroed : Malloc := Malloc.mk true (fun _ => some (fun _ => 0))

/-- Function `addOrgToWeb` (lines 46-65) on a name that the field `char name[20]`
holds: copy the old array into a block one longer and fill the last cell with the new
name and no prey. -/
def addOrgToWeb (web : List Org) (newOrgName : String) : List Org :=
  web ++ [Org.mk newOrgName []]

/-- The C string that a `char*` argument denotes when it points to the bytes of `s`
followed by a terminator: the characters before the first NUL. -/
def cString (s : String) : String :=
  String.mk (s.data.takeWhile (fun ch => decide (ch ≠ Char.ofNat 0)))

/-- Line 56: the `strcpy` into the field `char name[20]` of line 29.  A name of at most
19 bytes is stored with its terminator; a longer one is written past the end of the
array, for which C defines no result. -/
def strcpyName (newOrgName : String) : Option String :=
  if (cString newOrgName).utf8ByteSize < 20 then some (cString newOrgName) else none

/-- Function `addOrgToWeb` (lines 46-65) on any argument: the web after the call where
the `strcpy` of line 56 stays inside `name[20]`, and `none` where it does not. -/
def addOrgToWebArg (web : List Org) (newOrgName : String) : Option (List Org) :=
  match strcpyName newOrgName with
  | none => none
  | some stored => some (addOrgToWeb web stored)

/-- Duplicate scan of `addRelationToWeb` (lines 87-92): is `preyInd` already in
the predator's prey array? -/
def hasPrey (preyInd : Int) : List Int → Bool
  | [] => false
  | e :: es => if e = preyInd then true else hasPrey preyInd es

/-- Function `addRelationToWeb` (lines 79-111). -/
def addRelationToWeb (web : List Org) (predInd preyInd : Int) : Bool × List Org :=
  let numOrgs : Int := web.length
  if predInd < 0 ∨ predInd > numOrgs - 1 ∨ preyInd < 0 ∨ preyInd > numOrgs - 1
      ∨ predInd = preyInd then
    (false, web)
  else
    match web[predInd.toNat]? with
    | none => (false, web)
    | some pred =>
      if hasPrey preyInd pred.prey then (false, web)
      else (true, web.set predInd.toNat (Org.mk pred.name (pred.prey ++ [preyInd])))

/-- First inner loop of the renumbering pass (lines 185-192): the flags
`(extinct, greater)` after scanning the prey array. -/
def scanPrey (index : Int) : List Int → Bool × Bool → Bool × Bool
  | [], flags => flags
  | e :: es, (extinct, greater) =>
    if e = index then scanPrey index es (true, greater)
    else if e > index then scanPrey index es (extinct, true)
    else scanPrey index es (extinct, greater)

/-- In-place decrement loop (lines 195-199). -/
def decrementAbove (index : Int) (oldArr : List Int) : List Int :=
  oldArr.map (fun e => if e > index then e - 1 else e)

/-- Rebuild loop (lines 227-237): the values stored to `newArr[0]`, `newArr[1]`, ...
in the order they are written. -/
def copySurvivors (index : Int) : List Int → List Int
  | [] => []
  | ind :: rest =>
    if ind = index then copySurvivors index rest
    else if ind > index then (ind - 1) :: copySurvivors index rest
    else ind :: copySurvivors index rest

/-- The block `newArr` of `newCount` cells after the rebuild loop: the written cells,
then the cells the loop never reached with their initial contents. -/
def rebuildPrey (index : Int) (oldArr : List Int) (newCount : Nat) (cells : Nat → Int) :
    List Int :=
  let written := copySurvivors index oldArr
  written ++ ((List.range newCount).drop written.length).map cells

/-- Body of the renumbering pass for one node (lines 175-240); `alloc` is the outcome
of the `malloc` of line 222 should the body reach it. -/
def renumberOrg (index : Int) (alloc : Option (Nat → Int)) (o : Org) : Org :=
  let oldCount := o.prey.length
  if oldCount = 0 then o
  else
    match scanPrey index o.prey (false, false) with
    | (extinct, greater) =>
      if !extinct && greater then Org.mk o.name (decrementAbove index o.prey)
      else if !extinct && !greater then o
      else
        let newCount := if extinct then oldCount - 1 else oldCount
        if newCount = 0 then Org.mk o.name []
        else
          match alloc with
          | none => o
          | some cells => Org.mk o.name (rebuildPrey index o.prey newCount cells)

/-- The renumbering pass (lines 174-241) from loop position `i` on. -/
def renumberLoop (m : Malloc) (index : Int) (i : Nat) : List Org → List Org
  | [] => []
  | o :: rest => renumberOrg index (m.arr i) o :: renumberLoop m index (i + 1) rest

/-- Lines 149-153: the prey array of the node at position `k` is freed. -/
def freePreyAt (web : List Org) (k : Nat) : List Org :=
  match web[k]? with
  | none => web
  | some o => web.set k (Org.mk o.name [])

/-- Function `removeOrgFromWeb` (lines 125-243). -/
def removeOrgFromWeb (m : Malloc) (web : List Org) (index : Int) : Bool × List Org :=
  if web.length = 0 then (false, web)
  else if index < 0 ∨ index ≥ (web.length : Int) then (false, web)
  else if web.length = 1 then (true, [])
  else
    let freed := freePreyAt web index.toNat
    if !m.web then (false, freed)
    else
      let newWeb := freed.take index.toNat ++ freed.drop (index.toNat + 1)
      (true, renumberLoop m index 0 newWeb)

/-! ## Specification vocabulary -/

/-- The prey sequence of the node at position `p` (empty past the end). -/
def preyAt (web : List Org) (p : Nat) : List Int :=
  match web[p]? with
  | none => []
  | some o => o.prey

/-- The name of the node at position `p`, if there is one. -/
def nameAt (web : List Org) (p : Nat) : Option String :=
  (web[p]?).map Org.name

/-- The invariant for one prey sequence in a web of `n` nodes, owned by node `p`:
indices in range, no self-loop, no duplicate. -/
def PreyOk (n p : Nat) (prey : List Int) : Prop :=
  (∀ q ∈ prey, 0 ≤ q ∧ q < (n : Int) ∧ q ≠ (p : Int)) ∧ prey.Nodup

/-- Well-formedness of a web: every prey sequence satisfies the invariant. -/
def WellFormed (web : List Org) : Prop :=
  ∀ p, p < web.length → PreyOk web.length p (preyAt web p)

instance (n p : Nat) (prey : List Int) : Decidable (PreyOk n p prey) := by
  unfold PreyOk; infer_instance

instance (web : List Org) : Decidable (WellFormed web) := by
  unfold WellFormed; infer_instance

/-- What the specification prescribes for one prey entry when node `index` is
removed: drop it, decrement it, or keep it. -/
def shiftEntry (index e : Int) : Option Int :=
  if e = index then none else if e > index then some (e - 1) else some e

/-- The prescribed renumbering of one node. -/
def shiftOrg (index : Int) (o : Org) : Org :=
  Org.mk o.name (o.prey.filterMap (shiftEntry index))

/-- The pre-removal position of the node now at position `j`. -/
def oldPos (k j : Nat) : Nat := if j < k then j else j + 1

/-- The pre-removal index of a prey entry `q` of the new web. -/
def oldIdx (index q : Int) : Int := if q < index then q else q + 1

/-- The conditions under which `addRelationToWeb` rejects a relation. -/
def Rejected (web : List Org) (predInd preyInd : Int) : Prop :=
  predInd < 0 ∨ predInd ≥ (web.length : Int) ∨ preyInd < 0 ∨ preyInd ≥ (web.length : Int)
    ∨ predInd = preyInd ∨ preyInd ∈ preyAt web predInd.toNat

instance (web : List Org) (predInd preyInd : Int) :
    Decidable (Rejected web predInd preyInd) := by
  unfold Rejected; infer_instance

/-- The three mutations the interactive loop of `main` offers (expansion, supplementation,
extinction); an extinction carries the outcomes of its allocations. -/
inductive Op where
  | addOrg (newOrgName : String)
  | addRelation (predInd preyInd : Int)
  | removeOrg (m : Malloc) (index : Int)

/-- The web after one mutation, whether the call reports success or failure. -/
def Op.apply (web : List Org) : Op → List Org
  | Op.addOrg newOrgName => addOrgToWeb web newOrgName
  | Op.addRelation predInd preyInd => (addRelationToWeb web predInd preyInd).2
  | Op.removeOrg m index => (removeOrgFromWeb m web index).2

/-- The web after a sequence of mutations. -/
def runOps (web : List Org) : List Op → List Org
  | [] => web
  | op :: ops => runOps (op.apply web) ops

/-- The allocations of the renumbering pass of a mutation are obtained. -/
def Op.arrOk : Op → Prop
  | Op.removeOrg m _ => m.arrOk
  | _ => True

/-- A session that builds the Grass/Rabbit/Fox web, attempts a self-loop and a
duplicate, removes Grass and attempts a removal past the end. -/
def sampleOps : List Op :=
  [Op.addOrg "Grass", Op.addOrg "Rabbit", Op.addOrg "Fox", Op.addRelation 1 0,
   Op.addRelation 2 1, Op.addRelation 2 2, Op.addRelation 2 1,
   Op.removeOrg Malloc.zeroed 0, Op.removeOrg Malloc.zeroed 7]

/-- A well-formed web of five nodes on which the removal of node 1 takes every path of
the renumbering pass: in-place decrement (node 0), rebuild (node 2), skip (node 3) and
the emptied array (node 4). -/
def sampleWeb : List Org :=
  [Org.mk "Hawk" [2], Org.mk "Mouse" [3], Org.mk "Snake" [1, 0], Org.mk "Grass" [],
   Org.mk "Owl" [1]]

/-! ## The read-only analyses

An array access through a prey index, `arr[preyInd]`, is in bounds only when
`0 <= preyInd < length`; the analyses below return `none` (or `Fault.outOfBounds`) where
the C program would read or write outside the block.  The `while` loop of
`calculateHeights` takes the number of passes it may still make as fuel.  The printing
loops print `web[i].name`; their models record the index `i` of every printed line.
The arrays of the analyses are obtained from `malloc` unchecked and are modelled as
obtained. -/

/-- Read `arr[i]` for a C `int` index. -/
def getAt (arr : List Int) (i : Int) : Option Int :=
  if i < 0 then none else arr[i.toNat]?

/-- The statement `arr[i]++` for a C `int` index. -/
def incrAt (arr : List Int) (i : Int) : Option (List Int) :=
  match getAt arr i with
  | none => none
  | some v => some (arr.set i.toNat (v + 1))

/-- Inner loop of `eatenByCounts` (lines 312-315) over one prey array. -/
def countPrey : List Int → List Int → Option (List Int)
  | [], eatenBy => some eatenBy
  | preyInd :: rest, eatenBy =>
    match incrAt eatenBy preyInd with
    | none => none
    | some eatenBy1 => countPrey rest eatenBy1

/-- Outer loop of `eatenByCounts` (lines 311-316) over the remaining nodes. -/
def countAll : List Org → List Int → Option (List Int)
  | [], eatenBy => some eatenBy
  | o :: rest, eatenBy =>
    match countPrey o.prey eatenBy with
    | none => none
    | some eatenBy1 => countAll rest eatenBy1

/-- Function `eatenByCounts` (lines 303-318). -/
def eatenByCounts (web : List Org) : Option (List Int) :=
  countAll web (List.replicate web.length 0)

/-- Why a run of `calculateHeights` gives no result. -/
inductive Fault where
  | outOfBounds
  | outOfFuel
deriving DecidableEq, Repr

/-- Inner loop of `calculateHeights` (lines 344-349): `maxPreyHeight` after the prey
array, from its value before. -/
def maxPreyHeightLoop (height : List Int) : List Int → Int → Option Int
  | [], maxPreyHeight => some maxPreyHeight
  | preyInd :: rest, maxPreyHeight =>
    match getAt height preyInd with
    | none => none
    | some h =>
      if h > maxPreyHeight then maxPreyHeightLoop height rest h
      else maxPreyHeightLoop height rest maxPreyHeight

/-- Lines 341-351: `newHeight` of a node with the given prey array. -/
def newHeight (height : List Int) (prey : List Int) : Option Int :=
  if prey.length > 0 then
    match maxPreyHeightLoop height prey 0 with
    | none => none
    | some maxPreyHeight => some (maxPreyHeight + 1)
  else some 0

/-- The `for` loop of one pass (lines 340-356) from node `i` on, over the nodes
`web[i], web[i+1], ...`; the heights are updated in place and `change` is set when a
height is rewritten. -/
def relaxFrom (i : Nat) : List Org → List Int → Bool → Option (List Int × Bool)
  | [], height, change => some (height, change)
  | o :: rest, height, change =>
    match newHeight height o.prey with
    | none => none
    | some nh =>
      match height[i]? with
      | none => none
      | some hi =>
        if nh ≠ hi then relaxFrom (i + 1) rest (height.set i nh) true
        else relaxFrom (i + 1) rest height change

/-- The `while (change)` loop (lines 337-357) with `fuel` passes left. -/
def relaxLoop (web : List Org) : Nat → List Int → Except Fault (List Int)
  | 0, _ => Except.error Fault.outOfFuel
  | fuel + 1, height =>
    match relaxFrom 0 web height false with
    | none => Except.error Fault.outOfBounds
    | some (height1, change) =>
      if change then relaxLoop web fuel height1 else Except.ok height1

/-- Function `calculateHeights` (lines 330-359), allowed `fuel` passes.  Heights are
`Int`: on an acyclic web every height the loop computes lies between 0 and `n - 1`
(`relaxFrom_below`, `SolvesHeight.lt_length`), so no `int` overflows; on a web with a
cycle the heights grow with every pass, which the model reports as running out of fuel
and which in C ends in signed overflow. -/
def calculateHeights (fuel : Nat) (web : List Org) : Except Fault (List Int) :=
  relaxLoop web fuel (List.replicate web.length 0)

/-- Lines 386-394 of `printVoreTypes`: the array `producer`. -/
def producerFlags (web : List Org) : List Int :=
  web.map (fun o => if o.prey.length = 0 then 1 else 0)

/-- Inner loop of the three classification loops (lines 408-416, 428-436, 448-456):
the flags `(eatsP, eatsNP)` after the prey array. -/
def scanDiet (producer : List Int) : List Int → Bool × Bool → Option (Bool × Bool)
  | [], flags => some flags
  | preyInd :: rest, (eatsP, eatsNP) =>
    match getAt producer preyInd with
    | none => none
    | some v =>
      if v ≠ 0 then scanDiet producer rest (true, eatsNP)
      else scanDiet producer rest (eatsP, true)

/-- One of the three classification loops (lines 403-420, 423-440, 443-460) from node
`i` on; `keep eatsP eatsNP` is the condition under which the name is printed. -/
def voreLoop (producer : List Int) (keep : Bool → Bool → Bool) (i : Nat) :
    List Org → Option (List Nat)
  | [] => some []
  | o :: rest =>
    match producer[i]? with
    | none => none
    | some v =>
      if v ≠ 0 then voreLoop producer keep (i + 1) rest
      else
        match scanDiet producer o.prey (false, false) with
        | none => none
        | some (eatsP, eatsNP) =>
          match voreLoop producer keep (i + 1) rest with
          | none => none
          | some printed => some (if keep eatsP eatsNP then i :: printed else printed)

/-- The four groups printed by `printVoreTypes`, as node indices in print order. -/
structure VoreTypes where
  producers : List Nat
  herbivores : List Nat
  omnivores : List Nat
  carnivores : List Nat
deriving DecidableEq, Repr

/-- Function `printVoreTypes` (lines 385-463). -/
def printVoreTypes (web : List Org) : Option VoreTypes :=
  let producer := producerFlags web
  let producers := (List.range web.length).filter (fun i => producer[i]? != some 0)
  match voreLoop producer (fun eatsP eatsNP => eatsP && !eatsNP) 0 web with
  | none => none
  | some herbivores =>
    match voreLoop producer (fun eatsP eatsNP => eatsP && eatsNP) 0 web with
    | none => none
    | some omnivores =>
      match voreLoop producer (fun eatsP eatsNP => !eatsP && eatsNP) 0 web with
      | none => none
      | some carnivores => some (VoreTypes.mk producers herbivores omnivores carnivores)

/-- Lines 503-508 and 518-523 of `displayAll`: the running maximum, from 0. -/
def maxFrom (counts : List Int) : Int :=
  counts.foldl (fun mx c => if c > mx then c else mx) 0

/-- The lists printed by `displayAll` before the heights, as node indices in print
order. -/
structure Rankings where
  apex : List Nat
  producers : List Nat
  flexible : List Nat
  tastiest : List Nat
deriving DecidableEq, Repr

/-- Function `displayAll`, lines 481-530: the lists Apex Predators, Producers, Most
Flexible Eaters and Tastiest Food.  The heights and the vore types that follow are the
output of `calculateHeights` and `printVoreTypes`. -/
def displayAll (web : List Org) : Option Rankings :=
  match eatenByCounts web with
  | none => none
  | some eatenBy =>
    let numPrey : List Int := web.map (fun o => (o.prey.length : Int))
    let apex := (List.range web.length).filter (fun i => eatenBy[i]? == some 0)
    let producers := (List.range web.length).filter (fun i => numPrey[i]? == some 0)
    let maxPrey := maxFrom numPrey
    let flexible := (List.range web.length).filter (fun i => numPrey[i]? == some maxPrey)
    let maxEaten := maxFrom eatenBy
    let tastiest := (List.range web.length).filter (fun i => eatenBy[i]? == some maxEaten)
    some (Rankings.mk apex producers flexible tastiest)

/-! ## Vocabulary of the analyses -/

/-- The index invariant alone: every prey index is a position of the web. -/
def InRange (web : List Org) : Prop :=
  ∀ p, p < web.length → ∀ q ∈ preyAt web p, 0 ≤ q ∧ q < (web.length : Int)

instance (web : List Org) : Decidable (InRange web) := by
  unfold InRange; infer_instance

/-- Node `p` eats node `q`. -/
def Eats (web : List Org) (p q : Nat) : Prop := (q : Int) ∈ preyAt web p

/-- The predator/prey relation has no cycle: no node reaches itself along one or more
edges. -/
def Acyclic (web : List Org) : Prop := ∀ p, ¬ Relation.TransGen (Eats web) p p

/-- Node `q` is a producer: it has no prey. -/
def IsProducer (web : List Org) (q : Int) : Prop := preyAt web q.toNat = []

instance (web : List Org) (q : Int) : Decidable (IsProducer web q) := by
  unfold IsProducer; infer_instance

/-- The heights `h` satisfy the recursive definition at node `p`: 0 without prey,
otherwise one more than the greatest height among the prey. -/
def HeightAt (web : List Org) (h : List Int) (p : Nat) : Prop :=
  (preyAt web p = [] → h[p]? = some 0) ∧
  (preyAt web p ≠ [] →
    ∃ hp, h[p]? = some hp ∧
      (∀ q ∈ preyAt web p, ∃ hq, getAt h q = some hq ∧ hq + 1 ≤ hp) ∧
      (∃ q ∈ preyAt web p, getAt h q = some (hp - 1)))

/-- Fan-in of node `i`: the number of times index `i` appears across all prey
sequences. -/
def fanIn (web : List Org) (i : Nat) : Nat :=
  (web.map (fun o => o.prey.count (i : Int))).sum

/-- The number of nodes that list `i` among their prey. -/
def predatorCount (web : List Org) (i : Nat) : Nat :=
  web.countP (fun o => decide ((i : Int) ∈ o.prey))

/-- Node `p` has a producer among its prey. -/
def eatsProducer (web : List Org) (p : Nat) : Bool :=
  (preyAt web p).any (fun q => decide (IsProducer web q))

/-- Node `p` has a non-producer among its prey. -/
def eatsNonProducer (web : List Org) (p : Nat) : Bool :=
  (preyAt web p).any (fun q => !decide (IsProducer web q))

/-- Node `i` is not a producer and its diet meets the condition `keep`. -/
def keptBy (web : List Org) (keep : Bool → Bool → Bool) (i : Nat) : Bool :=
  !decide (preyAt web i = []) && keep (eatsProducer web i) (eatsNonProducer web i)

/-- The value read by `height[q]`, 0 where the access is out of bounds. -/
def valAt (height : List Int) (q : Int) : Int := (getAt height q).getD 0

/-- The running maximum of a list of values, from `m`. -/
def maxList (vals : List Int) (m : Int) : Int := vals.foldl max m

/-- The relaxation rule at node `t`: 0 without prey, otherwise one more than the
greatest of 0 and the current heights of the prey. -/
def newHeightOf (web : List Org) (height : List Int) (t : Nat) : Int :=
  if preyAt web t = [] then 0
  else maxList ((preyAt web t).map (valAt height)) 0 + 1

/-- The heights `h` are a fixed point of the relaxation rule: recomputing any node
gives the height it already has. -/
def IsFixed (web : List Org) (h : List Int) : Prop :=
  h.length = web.length ∧ ∀ j, j < web.length → newHeightOf web h j = (h[j]?).getD 0

/-- The function `H` solves the recursive definition of the height on the web. -/
def SolvesHeight (web : List Org) (H : Nat → Int) : Prop :=
  ∀ p, H p =
    if preyAt web p = [] then 0
    else maxList ((preyAt web p).map (fun q => H q.toNat)) 0 + 1

/-- Every current height lies between 0 and the value of `H` for its node. -/
def Below (web : List Org) (H : Nat → Int) (height : List Int) : Prop :=
  ∀ j, j < web.length → ∃ v, height[j]? = some v ∧ 0 ≤ v ∧ v ≤ H j

/-- The number of edges of the web. -/
def totalEdges (web : List Org) : Nat :=
  (web.map (fun o => o.prey.length)).sum

/-- The position after the removal of node `k` of the node that was at position `p`. -/
def newPos (k p : Nat) : Nat := if p < k then p else p - 1

/-- The prey index after the removal of node `index` of an entry `q` other than
`index`. -/
def newIdx (index q : Int) : Int := if q < index then q else q - 1

instance (web : List Org) (p q : Nat) : Decidable (Eats web p q) := by
  unfold Eats; infer_instance

/-- The web of the scenario: Grass, Rabbit eats Grass, Fox eats Rabbit. -/
def grassRabbitFox : List Org :=
  [Org.mk "Grass" [], Org.mk "Rabbit" [0], Org.mk "Fox" [1]]

/-- An acyclic web whose index order is against the food chain: Fox eats Rabbit, Rabbit
eats Grass; the relaxation needs three passes on it. -/
def foxRabbitGrass : List Org :=
  [Org.mk "Fox" [1], Org.mk "Rabbit" [2], Org.mk "Grass" []]

/-- The session that builds the web of the scenario from the empty web. -/
def grassRabbitFoxOps : List Op :=
  [Op.addOrg "Grass", Op.addOrg "Rabbit", Op.addOrg "Fox", Op.addRelation 1 0,
   Op.addRelation 2 1]

/-- A well-formed web on which the removal of node 0 needs a rebuilt prey array (for
Bear, which eats Grass and Fox) and the removal of node 1 discards a prey array of two
entries. -/
def bearWeb : List Org :=
  [Org.mk "Grass" [], Org.mk "Bear" [0, 3], Org.mk "Rabbit" [0], Org.mk "Fox" [2]]

/-- An allocator whose `malloc` for the shrunk `Org` array returns NULL. -/
def Malloc.noWeb : Malloc := Malloc.mk false (fun _ => some (fun _ => 0))

/-- An allocator that obtains the shrunk `Org` array and then returns NULL for every
rebuilt prey array. -/
def Malloc.noArr : Malloc := Malloc.mk true (fun _ => none)

/-- A well-formed web with a cycle: A eats B and B eats A. -/
def twoCycle : List Org := [Org.mk "A" [1], Org.mk "B" [0]]

/-! ## The renumbering pass on one prey array -/

theorem copySurvivors_eq_filterMap (index : Int) (l : List Int) :
    copySurvivors index l = l.filterMap (shiftEntry index) := by
  induction l with
  | nil => rfl
  | cons e es ih =>
    by_cases h1 : e = index
    · simp [copySurvivors, shiftEntry, h1, ih]
    · by_cases h2 : e > index
      · simp [copySurvivors, shiftEntry, h1, h2, ih, List.filterMap_cons]
      · simp [copySurvivors, shiftEntry, h1, h2, ih, List.filterMap_cons]

theorem scanPrey_eq (index : Int) (l : List Int) (extinct greater : Bool) :
    scanPrey index l (extinct, greater)
      = (extinct || decide (index ∈ l), greater || l.any (fun e => decide (e > index))) := by
  induction l generalizing extinct greater with
  | nil => simp [scanPrey]
  | cons e es ih =>
    by_cases h1 : e = index
    · subst h1
      simp [scanPrey, ih]
    · have h1' : ¬ index = e := fun h => h1 h.symm
      by_cases h2 : e > index
      · simp [scanPrey, ih, h1, h1', h2]
      · simp [scanPrey, ih, h1, h1', h2]

theorem length_copySurvivors (index : Int) (l : List Int) :
    (copySurvivors index l).length + l.count index = l.length := by
  induction l with
  | nil => rfl
  | cons e es ih =>
    by_cases h1 : e = index
    · subst h1
      simp [copySurvivors]
      omega
    · by_cases h2 : e > index
      · simp [copySurvivors, h1, h2, List.count_cons]
        omega
      · simp [copySurvivors, h1, h2, List.count_cons]
        omega

theorem filterMap_shift_of_not_mem (index : Int) (l : List Int) (h : index ∉ l) :
    l.filterMap (shiftEntry index) = decrementAbove index l := by
  induction l with
  | nil => rfl
  | cons e es ih =>
    have h1 : ¬ e = index := fun he => h (by simp [he])
    have h3 : index ∉ es := fun he => h (List.mem_cons_of_mem _ he)
    have ih' := ih h3
    unfold decrementAbove at ih' ⊢
    by_cases h2 : e > index
    · simp [shiftEntry, h1, h2, ih', List.filterMap_cons]
    · simp [shiftEntry, h1, h2, ih', List.filterMap_cons]

theorem decrementAbove_of_none_above (index : Int) (l : List Int)
    (h : l.any (fun e => decide (e > index)) = false) : decrementAbove index l = l := by
  induction l with
  | nil => rfl
  | cons e es ih =>
    simp only [List.any_cons, Bool.or_eq_false_iff, decide_eq_false_iff_not] at h
    have ih' := ih h.2
    unfold decrementAbove at ih' ⊢
    simp [h.1, ih']

/-- One step of the renumbering pass computes the prescribed filter-map, whichever
path handles the node, as long as the removed index occurs at most once. -/
theorem renumberOrg_eq (index : Int) (cells : Nat → Int) (o : Org)
    (h : o.prey.count index ≤ 1) :
    renumberOrg index (some cells) o = Org.mk o.name (o.prey.filterMap (shiftEntry index)) := by
  obtain ⟨name, prey⟩ := o
  simp only at h
  unfold renumberOrg
  simp only [scanPrey_eq, Bool.false_or]
  by_cases h0 : prey.length = 0
  · have : prey = [] := List.length_eq_zero.mp h0
    subst this
    simp
  · rw [if_neg h0]
    by_cases hx : index ∈ prey
    · have hc : prey.count index = 1 := by
        have := List.count_pos_iff.mpr hx
        omega
      have hl := length_copySurvivors index prey
      simp only [hx, decide_True, Bool.not_true, Bool.false_and, if_true]
      simp only [Bool.false_eq_true, if_false]
      by_cases hn : prey.length - 1 = 0
      · rw [if_pos hn]
        have : (copySurvivors index prey).length = 0 := by omega
        rw [← copySurvivors_eq_filterMap, List.length_eq_zero.mp this]
      · rw [if_neg hn]
        have hw : (copySurvivors index prey).length = prey.length - 1 := by omega
        simp only [rebuildPrey]
        rw [← hw, ← copySurvivors_eq_filterMap]
        simp
    · simp only [hx, decide_False, Bool.not_false, Bool.true_and]
      rw [filterMap_shift_of_not_mem index prey hx]
      by_cases hg : prey.any (fun e => decide (e > index)) = true
      · simp [hg]
      · have hg' : prey.any (fun e => decide (e > index)) = false := by simpa using hg
        simp [hg', decrementAbove_of_none_above index prey hg']

/-! ## The renumbering pass on the whole web -/

theorem renumberOrg_name (index : Int) (alloc : Option (Nat → Int)) (o : Org) :
    (renumberOrg index alloc o).name = o.name := by
  unfold renumberOrg
  simp only
  repeat' split
  all_goals rfl

theorem renumberLoop_names (m : Malloc) (index : Int) (i : Nat) (l : List Org) :
    (renumberLoop m index i l).map Org.name = l.map Org.name := by
  induction l generalizing i with
  | nil => rfl
  | cons o rest ih => simp [renumberLoop, renumberOrg_name, ih]

theorem renumberLoop_eq_map (m : Malloc) (index : Int) (i : Nat) (l : List Org)
    (harr : m.arrOk) (h : ∀ o ∈ l, o.prey.count index ≤ 1) :
    renumberLoop m index i l = l.map (shiftOrg index) := by
  induction l generalizing i with
  | nil => rfl
  | cons o rest ih =>
    have hi := harr i
    obtain ⟨cells, hc⟩ := Option.isSome_iff_exists.mp hi
    have ho : o.prey.count index ≤ 1 := h o (by simp)
    have hrest : ∀ o ∈ rest, o.prey.count index ≤ 1 := fun x hx => h x (by simp [hx])
    simp only [renumberLoop, List.map_cons, hc, renumberOrg_eq index cells o ho, ih (i + 1) hrest,
      shiftOrg]

theorem freePreyAt_take_drop (web : List Org) (k : Nat) :
    (freePreyAt web k).take k ++ (freePreyAt web k).drop (k + 1) = web.eraseIdx k := by
  rw [List.eraseIdx_eq_take_drop_succ]
  unfold freePreyAt
  split
  · rfl
  · rw [List.drop_set_of_lt _ _ (Nat.lt_succ_self k), List.set_take,
      List.set_eq_of_length_le (by simp)]

/-- With a valid index and the `Org` block obtained, the call returns true and the web
is the old one without node `index`, after the renumbering pass. -/
theorem removeOrgFromWeb_valid (m : Malloc) (web : List Org) (index : Int)
    (hweb : m.web = true) (h0 : 0 ≤ index) (hn : index < (web.length : Int)) :
    removeOrgFromWeb m web index
      = (true, renumberLoop m index 0 (web.eraseIdx index.toNat)) := by
  unfold removeOrgFromWeb
  have hlen : web.length ≠ 0 := by omega
  have hidx : ¬ (index < 0 ∨ index ≥ (web.length : Int)) := by omega
  rw [if_neg hlen, if_neg hidx]
  by_cases h1 : web.length = 1
  · rw [if_pos h1]
    have hi : index.toNat = 0 := by omega
    match web, h1 with
    | [o], _ => simp [hi, renumberLoop]
  · rw [if_neg h1]
    simp only [hweb, Bool.not_true, Bool.false_eq_true, if_false, freePreyAt_take_drop]

theorem preyAt_map_shiftOrg (index : Int) (l : List Org) (j : Nat) :
    preyAt (l.map (shiftOrg index)) j = (preyAt l j).filterMap (shiftEntry index) := by
  unfold preyAt
  rw [List.getElem?_map]
  cases l[j]? <;> simp [shiftOrg]

theorem preyAt_eraseIdx (web : List Org) (k j : Nat) :
    preyAt (web.eraseIdx k) j = preyAt web (oldPos k j) := by
  unfold preyAt oldPos
  rw [List.getElem?_eraseIdx]
  by_cases h : j < k
  · simp only [if_pos h]
  · simp only [if_neg h]

theorem WellFormed.count_le_one {web : List Org} (hwf : WellFormed web) (index : Int) :
    ∀ o ∈ web, o.prey.count index ≤ 1 := by
  intro o ho
  obtain ⟨p, hp, rfl⟩ := List.getElem_of_mem ho
  have := (hwf p hp).2
  unfold preyAt at this
  simp only [List.getElem?_eq_getElem hp] at this
  exact List.nodup_iff_count_le_one.mp this index

/-- With every allocation obtained, the removal of a valid index from a well-formed web
erases the node and applies the prescribed renumbering to every survivor. -/
theorem removeOrgFromWeb_wf_eq (m : Malloc) (web : List Org) (index : Int)
    (hm : m.allOk) (hwf : WellFormed web) (h0 : 0 ≤ index) (hn : index < (web.length : Int)) :
    removeOrgFromWeb m web index = (true, (web.eraseIdx index.toNat).map (shiftOrg index)) := by
  rw [removeOrgFromWeb_valid m web index hm.1 h0 hn]
  rw [renumberLoop_eq_map m index 0 _ hm.2]
  intro o ho
  exact hwf.count_le_one index o (List.mem_of_mem_eraseIdx ho)

theorem nameAt_renumberLoop (m : Malloc) (index : Int) (i : Nat) (l : List Org) (j : Nat) :
    nameAt (renumberLoop m index i l) j = nameAt l j := by
  unfold nameAt
  rw [← List.getElem?_map, ← List.getElem?_map, renumberLoop_names]

theorem length_renumberLoop (m : Malloc) (index : Int) (i : Nat) (l : List Org) :
    (renumberLoop m index i l).length = l.length := by
  have := congrArg List.length (renumberLoop_names m index i l)
  simpa using this

theorem shiftEntry_some {index e q : Int} (h : shiftEntry index e = some q) :
    e ≠ index ∧ oldIdx index q = e := by
  unfold shiftEntry at h
  unfold oldIdx
  by_cases h1 : e = index
  · simp [h1] at h
  · by_cases h2 : e > index
    · simp only [h1, h2, if_false, if_true, Option.some.injEq] at h
      subst h
      refine ⟨h1, ?_⟩
      rw [if_neg (by omega)]
      omega
    · simp only [h1, h2, if_false, Option.some.injEq] at h
      subst h
      refine ⟨h1, ?_⟩
      rw [if_pos (by omega)]

/-! ## Removal of a node -/

/-- C1: for a well-formed web and a valid index, with its allocations obtained,
`removeOrgFromWeb` succeeds and the prey sequence of every surviving node is the
filter-map of its old prey sequence: entries equal to the removed index dropped, greater
entries decremented, smaller entries kept, order preserved. -/
theorem removeOrgFromWeb_prey_filterMap (m : Malloc) (web : List Org) (index : Int)
    (hm : m.allOk) (hwf : WellFormed web) (h0 : 0 ≤ index) (hn : index < (web.length : Int)) :
    (removeOrgFromWeb m web index).1 = true ∧
    ∀ j, j < (removeOrgFromWeb m web index).2.length →
      preyAt (removeOrgFromWeb m web index).2 j
        = (preyAt web (if j < index.toNat then j else j + 1)).filterMap
            (fun e => if e = index then none else if e > index then some (e - 1) else some e) := by
  rw [removeOrgFromWeb_wf_eq m web index hm hwf h0 hn]
  refine ⟨rfl, fun j _ => ?_⟩
  simp only
  rw [preyAt_map_shiftOrg, preyAt_eraseIdx]
  rfl

theorem removeOrgFromWeb_prey_filterMap_witness :
    WellFormed sampleWeb ∧
    (removeOrgFromWeb Malloc.zeroed sampleWeb 1).1 = true ∧
    ∀ j, j < (removeOrgFromWeb Malloc.zeroed sampleWeb 1).2.length →
      preyAt (removeOrgFromWeb Malloc.zeroed sampleWeb 1).2 j
        = (preyAt sampleWeb (if j < (1 : Int).toNat then j else j + 1)).filterMap
            (fun e => if e = 1 then none else if e > 1 then some (e - 1) else some e) :=
  ⟨by decide, removeOrgFromWeb_prey_filterMap Malloc.zeroed sampleWeb 1
    ⟨rfl, fun _ => rfl⟩ (by decide) (by decide) (by decide)⟩

/-- C2: for a valid index, with the block for the shrunk array obtained,
`removeOrgFromWeb` returns true and leaves one node less; the node at a new position
below the index is the old node of that position, the node at a new position from the
index on is the old node one position further; a one-node web becomes empty. -/
theorem removeOrgFromWeb_shifts_nodes (m : Malloc) (web : List Org) (index : Int)
    (hweb : m.web = true) (h0 : 0 ≤ index) (hn : index < (web.length : Int)) :
    (removeOrgFromWeb m web index).1 = true ∧
    (removeOrgFromWeb m web index).2.length = web.length - 1 ∧
    (∀ j : Nat, (j : Int) < index →
      nameAt (removeOrgFromWeb m web index).2 j = nameAt web j) ∧
    (∀ j : Nat, index ≤ (j : Int) →
      nameAt (removeOrgFromWeb m web index).2 j = nameAt web (j + 1)) ∧
    (web.length = 1 → (removeOrgFromWeb m web index).2 = []) := by
  rw [removeOrgFromWeb_valid m web index hweb h0 hn]
  simp only
  refine ⟨trivial, ?_, ?_, ?_, ?_⟩
  · rw [length_renumberLoop, List.length_eraseIdx]
    rw [if_pos (by omega)]
  · intro j hj
    rw [nameAt_renumberLoop]
    unfold nameAt
    rw [List.getElem?_eraseIdx, if_pos (by omega)]
  · intro j hj
    rw [nameAt_renumberLoop]
    unfold nameAt
    rw [List.getElem?_eraseIdx, if_neg (by omega)]
  · intro h1
    apply List.eq_nil_of_length_eq_zero
    rw [length_renumberLoop, List.length_eraseIdx, if_pos (by omega)]
    omega

theorem removeOrgFromWeb_shifts_nodes_witness :
    (removeOrgFromWeb Malloc.zeroed sampleWeb 1).1 = true ∧
    (removeOrgFromWeb Malloc.zeroed sampleWeb 1).2.length = sampleWeb.length - 1 ∧
    (∀ j : Nat, (j : Int) < 1 →
      nameAt (removeOrgFromWeb Malloc.zeroed sampleWeb 1).2 j = nameAt sampleWeb j) ∧
    (∀ j : Nat, 1 ≤ (j : Int) →
      nameAt (removeOrgFromWeb Malloc.zeroed sampleWeb 1).2 j = nameAt sampleWeb (j + 1)) ∧
    (sampleWeb.length = 1 → (removeOrgFromWeb Malloc.zeroed sampleWeb 1).2 = []) :=
  removeOrgFromWeb_shifts_nodes Malloc.zeroed sampleWeb 1 rfl (by decide) (by decide)

/-- C3: for a well-formed web and a valid index, with its allocations obtained, every
edge `(p, q)` of the web after `removeOrgFromWeb` is an edge of the old web between the
pre-removal indices of `p` and `q`, neither of which is the removed node, and `q` is a
valid index of the new web. -/
theorem removeOrgFromWeb_edges_sound (m : Malloc) (web : List Org) (index : Int)
    (hm : m.allOk) (hwf : WellFormed web) (h0 : 0 ≤ index) (hn : index < (web.length : Int)) :
    ∀ (p : Nat) (q : Int), p < (removeOrgFromWeb m web index).2.length →
      q ∈ preyAt (removeOrgFromWeb m web index).2 p →
        oldIdx index q ∈ preyAt web (oldPos index.toNat p) ∧
        oldPos index.toNat p ≠ index.toNat ∧ oldIdx index q ≠ index ∧
        0 ≤ q ∧ q < ((removeOrgFromWeb m web index).2.length : Int) := by
  rw [removeOrgFromWeb_wf_eq m web index hm hwf h0 hn]
  intro p q hp hq
  simp only [List.length_map, List.length_eraseIdx] at hp ⊢
  rw [if_pos (by omega)] at hp ⊢
  rw [preyAt_map_shiftOrg, preyAt_eraseIdx, List.mem_filterMap] at hq
  obtain ⟨e, he, hs⟩ := hq
  obtain ⟨hne, hold⟩ := shiftEntry_some hs
  have hpos : oldPos index.toNat p < web.length := by unfold oldPos; split <;> omega
  have hr := (hwf _ hpos).1 e he
  refine ⟨hold ▸ he, ?_, hold ▸ hne, ?_, ?_⟩
  · unfold oldPos; split <;> omega
  · rw [← hold] at hr; unfold oldIdx at hr; split at hr <;> omega
  · rw [← hold] at hr hne; unfold oldIdx at hr hne; split at hr <;> omega

theorem removeOrgFromWeb_edges_sound_witness :
    WellFormed sampleWeb ∧
    ∀ (p : Nat) (q : Int), p < (removeOrgFromWeb Malloc.zeroed sampleWeb 1).2.length →
      q ∈ preyAt (removeOrgFromWeb Malloc.zeroed sampleWeb 1).2 p →
        oldIdx 1 q ∈ preyAt sampleWeb (oldPos (1 : Int).toNat p) ∧
        oldPos (1 : Int).toNat p ≠ (1 : Int).toNat ∧ oldIdx 1 q ≠ 1 ∧
        0 ≤ q ∧ q < ((removeOrgFromWeb Malloc.zeroed sampleWeb 1).2.length : Int) :=
  ⟨by decide, removeOrgFromWeb_edges_sound Malloc.zeroed sampleWeb 1
    ⟨rfl, fun _ => rfl⟩ (by decide) (by decide) (by decide)⟩

/-! ## Insertion of a node and of an edge -/

theorem hasPrey_iff (preyInd : Int) (l : List Int) : hasPrey preyInd l = true ↔ preyInd ∈ l := by
  induction l with
  | nil => simp [hasPrey]
  | cons e es ih =>
    by_cases h : e = preyInd
    · simp [hasPrey, h]
    · have h' : ¬ preyInd = e := fun x => h x.symm
      simp [hasPrey, h, h', ih]

theorem addRelationToWeb_rejected (web : List Org) (predInd preyInd : Int)
    (h : Rejected web predInd preyInd) : addRelationToWeb web predInd preyInd = (false, web) := by
  unfold addRelationToWeb
  simp only
  by_cases hg : predInd < 0 ∨ predInd > (web.length : Int) - 1 ∨ preyInd < 0
      ∨ preyInd > (web.length : Int) - 1 ∨ predInd = preyInd
  · rw [if_pos hg]
  · rw [if_neg hg]
    have hmem : preyInd ∈ preyAt web predInd.toNat := by
      unfold Rejected at h
      by_contra hc
      apply hg
      rcases h with h | h | h | h | h | h <;> first | exact absurd h hc | omega
    unfold preyAt at hmem
    split
    · rfl
    · rename_i pred hpred
      rw [hpred] at hmem
      rw [if_pos ((hasPrey_iff _ _).mpr hmem)]

theorem addRelationToWeb_accepted (web : List Org) (predInd preyInd : Int)
    (h : ¬ Rejected web predInd preyInd) :
    ∃ pred, web[predInd.toNat]? = some pred ∧
      addRelationToWeb web predInd preyInd
        = (true, web.set predInd.toNat (Org.mk pred.name (pred.prey ++ [preyInd]))) := by
  unfold Rejected at h
  have hg : ¬ (predInd < 0 ∨ predInd > (web.length : Int) - 1 ∨ preyInd < 0
      ∨ preyInd > (web.length : Int) - 1 ∨ predInd = preyInd) := by omega
  have hlt : predInd.toNat < web.length := by omega
  refine ⟨web[predInd.toNat], List.getElem?_eq_getElem hlt, ?_⟩
  have hmem : preyInd ∉ preyAt web predInd.toNat := fun hh => h (by simp [hh])
  unfold preyAt at hmem
  rw [List.getElem?_eq_getElem hlt] at hmem
  unfold addRelationToWeb
  simp only
  rw [if_neg hg, List.getElem?_eq_getElem hlt]
  simp only
  rw [if_neg (fun hh => hmem ((hasPrey_iff _ _).mp hh))]

theorem preyAt_set (web : List Org) (k p : Nat) (o : Org) (hk : k < web.length) :
    preyAt (web.set k o) p = if p = k then o.prey else preyAt web p := by
  unfold preyAt
  by_cases h : p = k
  · subst h
    simp [hk]
  · rw [List.getElem?_set_ne (fun x => h x.symm), if_neg h]

theorem nameAt_set (web : List Org) (k p : Nat) (o pred : Org)
    (hk : web[k]? = some pred) (hname : o.name = pred.name) :
    nameAt (web.set k o) p = nameAt web p := by
  unfold nameAt
  by_cases h : p = k
  · subst h
    have hlt : p < web.length := (List.getElem?_eq_some.mp hk).1
    simp [hlt, hk, hname]
  · rw [List.getElem?_set_ne (fun x => h x.symm)]

/-! ## Preservation of well-formedness -/

theorem PreyOk.mono {n n' p : Nat} {l : List Int} (h : PreyOk n p l) (hn : n ≤ n') :
    PreyOk n' p l := by
  refine ⟨fun q hq => ?_, h.2⟩
  have := h.1 q hq
  omega

theorem PreyOk.nil (n p : Nat) : PreyOk n p [] :=
  ⟨fun _ hq => absurd hq (List.not_mem_nil _), List.nodup_nil⟩

theorem wellFormed_addOrgToWeb (web : List Org) (newOrgName : String) (hwf : WellFormed web) :
    WellFormed (addOrgToWeb web newOrgName) := by
  intro p hp
  unfold addOrgToWeb at hp ⊢
  simp only [List.length_append, List.length_singleton] at hp ⊢
  by_cases h : p < web.length
  · have hp' : preyAt (web ++ [Org.mk newOrgName []]) p = preyAt web p := by
      unfold preyAt
      rw [List.getElem?_append_left h]
    rw [hp']
    exact (hwf p h).mono (Nat.le_succ _)
  · have hpe : p = web.length := by omega
    have hp' : preyAt (web ++ [Org.mk newOrgName []]) p = [] := by
      unfold preyAt
      subst hpe
      simp
    rw [hp']
    exact PreyOk.nil _ _

theorem wellFormed_addRelationToWeb (web : List Org) (predInd preyInd : Int)
    (hwf : WellFormed web) : WellFormed (addRelationToWeb web predInd preyInd).2 := by
  by_cases hr : Rejected web predInd preyInd
  · rw [addRelationToWeb_rejected web predInd preyInd hr]
    exact hwf
  · obtain ⟨pred, hpred, heq⟩ := addRelationToWeb_accepted web predInd preyInd hr
    rw [heq]
    have hk : predInd.toNat < web.length := (List.getElem?_eq_some.mp hpred).1
    have hold : preyAt web predInd.toNat = pred.prey := by unfold preyAt; rw [hpred]
    unfold Rejected at hr
    intro p hp
    simp only [List.length_set] at hp ⊢
    rw [preyAt_set web _ p _ hk]
    by_cases hpk : p = predInd.toNat
    · rw [if_pos hpk]
      have hw := hwf p hp
      rw [hpk, hold] at hw
      refine ⟨fun q hq => ?_, ?_⟩
      · rcases List.mem_append.mp hq with hq | hq
        · have := hw.1 q hq
          omega
        · have hq' : q = preyInd := by simpa using hq
          omega
      · have hnot : preyInd ∉ pred.prey := fun hh => hr (by simp [hold, hh])
        simpa [List.nodup_append] using And.intro hw.2 hnot
    · rw [if_neg hpk]
      exact hwf p hp

theorem wellFormed_freePreyAt (web : List Org) (k : Nat) (hwf : WellFormed web) :
    WellFormed (freePreyAt web k) := by
  unfold freePreyAt
  split
  · exact hwf
  · rename_i o ho
    have hk : k < web.length := (List.getElem?_eq_some.mp ho).1
    intro p hp
    simp only [List.length_set] at hp ⊢
    rw [preyAt_set web k p _ hk]
    by_cases hpk : p = k
    · rw [if_pos hpk]
      exact PreyOk.nil _ _
    · rw [if_neg hpk]
      exact hwf p hp

theorem nodup_filterMap_shiftEntry (index : Int) (l : List Int) (h : l.Nodup) :
    (l.filterMap (shiftEntry index)).Nodup := by
  refine List.Nodup.filterMap ?_ h
  intro a a' b hb hb'
  have h1 := (shiftEntry_some (Option.mem_def.mp hb)).2
  have h2 := (shiftEntry_some (Option.mem_def.mp hb')).2
  rw [← h1, ← h2]

theorem wellFormed_shift_eraseIdx (web : List Org) (index : Int) (hwf : WellFormed web)
    (h0 : 0 ≤ index) (hn : index < (web.length : Int)) :
    WellFormed ((web.eraseIdx index.toNat).map (shiftOrg index)) := by
  intro p hp
  simp only [List.length_map, List.length_eraseIdx] at hp ⊢
  rw [if_pos (by omega)] at hp ⊢
  rw [preyAt_map_shiftOrg, preyAt_eraseIdx]
  have hpos : oldPos index.toNat p < web.length := by unfold oldPos; split <;> omega
  have hw := hwf _ hpos
  refine ⟨fun q hq => ?_, nodup_filterMap_shiftEntry index _ hw.2⟩
  obtain ⟨e, he, hs⟩ := List.mem_filterMap.mp hq
  obtain ⟨hne, hold⟩ := shiftEntry_some hs
  have hr := hw.1 e he
  rw [← hold] at hr hne
  unfold oldIdx at hr hne
  unfold oldPos at hr
  split at hr <;> split at hr <;> omega

theorem wellFormed_removeOrgFromWeb (m : Malloc) (web : List Org) (index : Int)
    (harr : m.arrOk) (hwf : WellFormed web) : WellFormed (removeOrgFromWeb m web index).2 := by
  by_cases hv : 0 ≤ index ∧ index < (web.length : Int)
  · by_cases hweb : m.web = true
    · rw [removeOrgFromWeb_wf_eq m web index ⟨hweb, harr⟩ hwf hv.1 hv.2]
      exact wellFormed_shift_eraseIdx web index hwf hv.1 hv.2
    · unfold removeOrgFromWeb
      have hlen : web.length ≠ 0 := by omega
      have hidx : ¬ (index < 0 ∨ index ≥ (web.length : Int)) := by omega
      rw [if_neg hlen, if_neg hidx]
      split
      · intro p hp
        simp at hp
      · simp only [Bool.not_eq_true] at hweb
        simp only [hweb, Bool.not_false, if_true]
        exact wellFormed_freePreyAt web _ hwf
  · unfold removeOrgFromWeb
    split
    · exact hwf
    · rw [if_pos (by omega)]
      exact hwf

theorem wellFormed_apply (web : List Org) (op : Op) (hop : op.arrOk) (hwf : WellFormed web) :
    WellFormed (op.apply web) := by
  cases op with
  | addOrg newOrgName => exact wellFormed_addOrgToWeb web newOrgName hwf
  | addRelation predInd preyInd => exact wellFormed_addRelationToWeb web predInd preyInd hwf
  | removeOrg m index => exact wellFormed_removeOrgFromWeb m web index hop hwf

theorem wellFormed_runOps (ops : List Op) (web : List Org) (hops : ∀ op ∈ ops, op.arrOk)
    (hwf : WellFormed web) : WellFormed (runOps web ops) := by
  induction ops generalizing web with
  | nil => exact hwf
  | cons op ops ih =>
    exact ih (op.apply web) (fun o ho => hops o (List.mem_cons_of_mem _ ho))
      (wellFormed_apply web op (hops op (List.mem_cons_self _ _)) hwf)

/-- C4: well-formedness (prey indices in range, no self-loop, no duplicate prey) is
preserved by `addOrgToWeb`, by `addRelationToWeb` and by `removeOrgFromWeb` whatever they
return, the allocations of the renumbering pass being obtained; hence it holds for every
web reached from the empty web by a sequence of these operations. -/
theorem wellFormed_preserved :
    (∀ (web : List Org) (newOrgName : String),
      WellFormed web → WellFormed (addOrgToWeb web newOrgName)) ∧
    (∀ (web : List Org) (predInd preyInd : Int),
      WellFormed web → WellFormed (addRelationToWeb web predInd preyInd).2) ∧
    (∀ (m : Malloc) (web : List Org) (index : Int),
      m.arrOk → WellFormed web → WellFormed (removeOrgFromWeb m web index).2) ∧
    (∀ ops : List Op, (∀ op ∈ ops, op.arrOk) → WellFormed (runOps [] ops)) :=
  ⟨wellFormed_addOrgToWeb, wellFormed_addRelationToWeb, wellFormed_removeOrgFromWeb,
    fun ops hops => wellFormed_runOps ops [] hops (fun _ hp => absurd hp (Nat.not_lt_zero _))⟩

theorem wellFormed_preserved_witness :
    (∀ op ∈ sampleOps, op.arrOk) ∧ WellFormed (runOps [] sampleOps) := by
  have hops : ∀ op ∈ sampleOps, op.arrOk := by
    intro op hop
    simp only [sampleOps, List.mem_cons, List.mem_singleton, List.not_mem_nil, or_false] at hop
    rcases hop with h | h | h | h | h | h | h | h | h <;> subst h <;>
      first | trivial | exact fun _ => rfl
  exact ⟨hops, wellFormed_preserved.2.2.2 sampleOps hops⟩

/-! ## Contracts of the three mutations -/

/-- C5: `removeOrgFromWeb` returns false and leaves the web unchanged whenever the web is
empty or the index is negative or not below the node count; with the block for the
shrunk array obtained, it returns false in those cases only. -/
theorem removeOrgFromWeb_invalid (m : Malloc) (web : List Org) (index : Int) :
    ((web.length = 0 ∨ index < 0 ∨ index ≥ (web.length : Int)) →
      removeOrgFromWeb m web index = (false, web)) ∧
    (m.web = true → (removeOrgFromWeb m web index).1 = false →
      (web.length = 0 ∨ index < 0 ∨ index ≥ (web.length : Int))) := by
  constructor
  · intro h
    unfold removeOrgFromWeb
    split
    · rfl
    · rw [if_pos (by omega)]
  · intro hweb hret
    by_contra hc
    rw [removeOrgFromWeb_valid m web index hweb (by omega) (by omega)] at hret
    simp at hret

theorem removeOrgFromWeb_invalid_witness :
    removeOrgFromWeb Malloc.zeroed sampleWeb 5 = (false, sampleWeb) ∧
    (sampleWeb.length = 0 ∨ (5 : Int) < 0 ∨ (5 : Int) ≥ (sampleWeb.length : Int)) :=
  ⟨(removeOrgFromWeb_invalid Malloc.zeroed sampleWeb 5).1 (by decide),
   (removeOrgFromWeb_invalid Malloc.zeroed sampleWeb 5).2 rfl (by decide)⟩

/-- C6: `addRelationToWeb` returns false exactly when the predator index or the prey
index is outside `[0, n)`, or they are equal, or the prey index already occurs in the
predator's prey sequence; otherwise it returns true. -/
theorem addRelationToWeb_false_iff (web : List Org) (predInd preyInd : Int) :
    ((addRelationToWeb web predInd preyInd).1 = false ↔
      (predInd < 0 ∨ predInd ≥ (web.length : Int) ∨ preyInd < 0 ∨ preyInd ≥ (web.length : Int)
        ∨ predInd = preyInd ∨ preyInd ∈ preyAt web predInd.toNat)) ∧
    ((addRelationToWeb web predInd preyInd).1 = true ↔
      ¬ (predInd < 0 ∨ predInd ≥ (web.length : Int) ∨ preyInd < 0
        ∨ preyInd ≥ (web.length : Int) ∨ predInd = preyInd
        ∨ preyInd ∈ preyAt web predInd.toNat)) := by
  by_cases hr : Rejected web predInd preyInd
  · have hr' := hr
    unfold Rejected at hr'
    rw [addRelationToWeb_rejected web predInd preyInd hr]
    simp [hr']
  · obtain ⟨pred, _, heq⟩ := addRelationToWeb_accepted web predInd preyInd hr
    have hr' := hr
    unfold Rejected at hr'
    rw [heq]
    simp only [Bool.true_eq_false, false_iff, true_iff]
    exact ⟨hr', hr'⟩

/-- C7: whenever `addRelationToWeb` returns false the web is left exactly as it was; in
particular a self-loop on index 0 is rejected and changes nothing. -/
theorem addRelationToWeb_false_unchanged (web : List Org) (predInd preyInd : Int)
    (hret : (addRelationToWeb web predInd preyInd).1 = false) :
    (addRelationToWeb web predInd preyInd).2 = web ∧
    addRelationToWeb web 0 0 = (false, web) := by
  constructor
  · by_cases hr : Rejected web predInd preyInd
    · rw [addRelationToWeb_rejected web predInd preyInd hr]
    · obtain ⟨pred, _, heq⟩ := addRelationToWeb_accepted web predInd preyInd hr
      rw [heq] at hret
      simp at hret
  · exact addRelationToWeb_rejected web 0 0 (by unfold Rejected; simp)

theorem addRelationToWeb_false_unchanged_witness :
    (addRelationToWeb sampleWeb 2 1).1 = false ∧
    (addRelationToWeb sampleWeb 2 1).2 = sampleWeb ∧
    addRelationToWeb sampleWeb 0 0 = (false, sampleWeb) :=
  ⟨by decide, addRelationToWeb_false_unchanged sampleWeb 2 1 (by decide)⟩

/-- C8: whenever `addRelationToWeb` returns true, the predator's prey sequence is its
old sequence with the prey index appended, and the node count, every name and every
other prey sequence are unchanged. -/
theorem addRelationToWeb_true_appends (web : List Org) (predInd preyInd : Int)
    (hret : (addRelationToWeb web predInd preyInd).1 = true) :
    0 ≤ predInd ∧ predInd < (web.length : Int) ∧
    preyAt (addRelationToWeb web predInd preyInd).2 predInd.toNat
      = preyAt web predInd.toNat ++ [preyInd] ∧
    (preyAt (addRelationToWeb web predInd preyInd).2 predInd.toNat).length
      = (preyAt web predInd.toNat).length + 1 ∧
    (addRelationToWeb web predInd preyInd).2.length = web.length ∧
    (∀ p : Nat, nameAt (addRelationToWeb web predInd preyInd).2 p = nameAt web p) ∧
    (∀ p : Nat, (p : Int) ≠ predInd →
      preyAt (addRelationToWeb web predInd preyInd).2 p = preyAt web p) := by
  by_cases hr : Rejected web predInd preyInd
  · rw [addRelationToWeb_rejected web predInd preyInd hr] at hret
    simp at hret
  · obtain ⟨pred, hpred, heq⟩ := addRelationToWeb_accepted web predInd preyInd hr
    have hk : predInd.toNat < web.length := (List.getElem?_eq_some.mp hpred).1
    have hold : preyAt web predInd.toNat = pred.prey := by unfold preyAt; rw [hpred]
    unfold Rejected at hr
    rw [heq]
    simp only
    refine ⟨by omega, by omega, ?_, ?_, List.length_set _ _ _, ?_, ?_⟩
    · rw [preyAt_set web _ _ _ hk, if_pos rfl, hold]
    · rw [preyAt_set web _ _ _ hk, if_pos rfl, hold]
      simp
    · intro p
      exact nameAt_set web _ p _ pred hpred rfl
    · intro p hp
      rw [preyAt_set web _ _ _ hk, if_neg (by omega)]

theorem addRelationToWeb_true_appends_witness :
    (addRelationToWeb sampleWeb 4 3).1 = true ∧
    (0 : Int) ≤ 4 ∧ (4 : Int) < (sampleWeb.length : Int) ∧
    preyAt (addRelationToWeb sampleWeb 4 3).2 (4 : Int).toNat
      = preyAt sampleWeb (4 : Int).toNat ++ [3] ∧
    (preyAt (addRelationToWeb sampleWeb 4 3).2 (4 : Int).toNat).length
      = (preyAt sampleWeb (4 : Int).toNat).length + 1 ∧
    (addRelationToWeb sampleWeb 4 3).2.length = sampleWeb.length ∧
    (∀ p : Nat, nameAt (addRelationToWeb sampleWeb 4 3).2 p = nameAt sampleWeb p) ∧
    (∀ p : Nat, (p : Int) ≠ 4 →
      preyAt (addRelationToWeb sampleWeb 4 3).2 p = preyAt sampleWeb p) :=
  ⟨by decide, addRelationToWeb_true_appends sampleWeb 4 3 (by decide)⟩

/-- C9: calling `addRelationToWeb` twice in a row with the same arguments, the second
call returns false and leaves the web of the first call unchanged, so the predator's
prey sequence keeps its length. -/
theorem addRelationToWeb_twice (web : List Org) (predInd preyInd : Int) :
    addRelationToWeb (addRelationToWeb web predInd preyInd).2 predInd preyInd
      = (false, (addRelationToWeb web predInd preyInd).2) ∧
    (preyAt (addRelationToWeb (addRelationToWeb web predInd preyInd).2 predInd preyInd).2
        predInd.toNat).length
      = (preyAt (addRelationToWeb web predInd preyInd).2 predInd.toNat).length := by
  have key : addRelationToWeb (addRelationToWeb web predInd preyInd).2 predInd preyInd
      = (false, (addRelationToWeb web predInd preyInd).2) := by
    by_cases hr : Rejected web predInd preyInd
    · rw [addRelationToWeb_rejected web predInd preyInd hr]
      exact addRelationToWeb_rejected web predInd preyInd hr
    · obtain ⟨pred, hpred, heq⟩ := addRelationToWeb_accepted web predInd preyInd hr
      have hk : predInd.toNat < web.length := (List.getElem?_eq_some.mp hpred).1
      rw [heq]
      apply addRelationToWeb_rejected
      unfold Rejected
      simp only
      rw [preyAt_set web _ _ _ hk, if_pos rfl]
      simp
  exact ⟨key, by rw [key]⟩

/-- On a name that the field holds, `addOrgToWeb` yields a web of `n + 1` nodes whose
node `n` has the given name and no prey, while every node below `n` keeps its position,
name and prey sequence. -/
theorem addOrgToWeb_frame (web : List Org) (newOrgName : String) :
    (addOrgToWeb web newOrgName).length = web.length + 1 ∧
    nameAt (addOrgToWeb web newOrgName) web.length = some newOrgName ∧
    preyAt (addOrgToWeb web newOrgName) web.length = [] ∧
    (∀ p : Nat, p < web.length →
      (addOrgToWeb web newOrgName)[p]? = web[p]? ∧
      nameAt (addOrgToWeb web newOrgName) p = nameAt web p ∧
      preyAt (addOrgToWeb web newOrgName) p = preyAt web p) := by
  unfold addOrgToWeb
  refine ⟨by simp, by simp [nameAt], by simp [preyAt], fun p hp => ?_⟩
  have h : (web ++ [Org.mk newOrgName []])[p]? = web[p]? := List.getElem?_append_left hp
  exact ⟨h, by unfold nameAt; rw [h], by unfold preyAt; rw [h]⟩

theorem cString_eq_self (s : String) (h : Char.ofNat 0 ∉ s.data) : cString s = s := by
  unfold cString
  have hall : s.data.takeWhile (fun ch => decide (ch ≠ Char.ofNat 0)) = s.data := by
    rw [List.takeWhile_eq_self_iff]
    intro x hx
    simp only [ne_eq, decide_not, Bool.not_eq_true', decide_eq_false_iff_not]
    intro hc
    exact h (hc ▸ hx)
  rw [hall]

/-- A name of at most 19 bytes without NUL is stored as it is. -/
theorem strcpyName_fits (newOrgName : String) (hlen : newOrgName.utf8ByteSize < 20)
    (hnul : Char.ofNat 0 ∉ newOrgName.data) : strcpyName newOrgName = some newOrgName := by
  unfold strcpyName
  rw [cString_eq_self newOrgName hnul, if_pos hlen]

/-- C10, as the claim states it, fails: a name of 30 bytes does not fit `char name[20]`;
the `strcpy` of line 56 writes past the end of the field and the call gives no web whose
new node has the given name. -/
theorem addOrgToWebArg_long_name :
    "Tyrannosaurus-rex-the-terrible".utf8ByteSize = 30 ∧
    Char.ofNat 0 ∉ "Tyrannosaurus-rex-the-terrible".data ∧
    addOrgToWebArg [] "Tyrannosaurus-rex-the-terrible" = none ∧
    ¬ ∃ web1, addOrgToWebArg [] "Tyrannosaurus-rex-the-terrible" = some web1 ∧
        nameAt web1 0 = some "Tyrannosaurus-rex-the-terrible" := by
  refine ⟨by decide, by decide, by decide, ?_⟩
  rintro ⟨web1, h1, _⟩
  have hnone : addOrgToWebArg [] "Tyrannosaurus-rex-the-terrible" = none := by decide
  rw [hnone] at h1
  exact Option.noConfusion h1

/-- C10, amended: for a name of at most 19 bytes, which the field `char name[20]` holds
with its terminator, `addOrgToWeb` yields a web of `n + 1` nodes whose node `n` has the
given name and no prey, while every node below `n` keeps its position, name and prey
sequence. -/
theorem addOrgToWebArg_appends (web : List Org) (newOrgName : String)
    (hlen : newOrgName.utf8ByteSize < 20) (hnul : Char.ofNat 0 ∉ newOrgName.data) :
    ∃ web1, addOrgToWebArg web newOrgName = some web1 ∧
      web1.length = web.length + 1 ∧
      nameAt web1 web.length = some newOrgName ∧
      preyAt web1 web.length = [] ∧
      (∀ p : Nat, p < web.length →
        web1[p]? = web[p]? ∧ nameAt web1 p = nameAt web p ∧ preyAt web1 p = preyAt web p) := by
  refine ⟨addOrgToWeb web newOrgName, ?_, addOrgToWeb_frame web newOrgName⟩
  unfold addOrgToWebArg
  rw [strcpyName_fits newOrgName hlen hnul]

theorem addOrgToWebArg_appends_witness :
    "Deer".utf8ByteSize < 20 ∧ Char.ofNat 0 ∉ "Deer".data ∧
    ∃ web1, addOrgToWebArg sampleWeb "Deer" = some web1 ∧
      web1.length = sampleWeb.length + 1 ∧
      nameAt web1 sampleWeb.length = some "Deer" ∧
      preyAt web1 sampleWeb.length = [] ∧
      (∀ p : Nat, p < sampleWeb.length →
        web1[p]? = sampleWeb[p]? ∧ nameAt web1 p = nameAt sampleWeb p ∧
        preyAt web1 p = preyAt sampleWeb p) :=
  ⟨by decide, by decide, addOrgToWebArg_appends sampleWeb "Deer" (by decide) (by decide)⟩

/-! ## Array accesses of the analyses -/

theorem InRange.mem {web : List Org} (h : InRange web) :
    ∀ o ∈ web, ∀ q ∈ o.prey, 0 ≤ q ∧ q < (web.length : Int) := by
  intro o ho q hq
  obtain ⟨p, hp, rfl⟩ := List.getElem_of_mem ho
  have := h p hp q
  unfold preyAt at this
  simp only [List.getElem?_eq_getElem hp] at this
  exact this hq

theorem WellFormed.inRange {web : List Org} (h : WellFormed web) : InRange web :=
  fun p hp q hq => ⟨((h p hp).1 q hq).1, ((h p hp).1 q hq).2.1⟩

theorem getAt_eq_some {arr : List Int} {i : Int} (h0 : 0 ≤ i) (hn : i < (arr.length : Int)) :
    ∃ v, getAt arr i = some v ∧ arr[i.toNat]? = some v := by
  have hlt : i.toNat < arr.length := by omega
  refine ⟨arr[i.toNat], ?_, List.getElem?_eq_getElem hlt⟩
  unfold getAt
  rw [if_neg (by omega), List.getElem?_eq_getElem hlt]

theorem getAt_natCast (arr : List Int) (q : Nat) : getAt arr (q : Int) = arr[q]? := by
  unfold getAt
  rw [if_neg (by omega)]
  simp

/-! ## Fan-in counts -/

theorem incrAt_spec (arr : List Int) (q : Int) (h0 : 0 ≤ q) (hn : q < (arr.length : Int)) :
    ∃ arr1, incrAt arr q = some arr1 ∧ arr1.length = arr.length ∧
      ∀ (i : Nat) (v : Int), arr[i]? = some v →
        arr1[i]? = some (v + if q = (i : Int) then 1 else 0) := by
  obtain ⟨w, hw, hw1⟩ := getAt_eq_some h0 hn
  refine ⟨arr.set q.toNat (w + 1), ?_, List.length_set _ _ _, ?_⟩
  · unfold incrAt
    rw [hw]
  · intro i v hv
    by_cases hi : q = (i : Int)
    · have hqi : q.toNat = i := by omega
      rw [if_pos hi, hqi]
      rw [hqi, hv] at hw1
      have hlt : i < arr.length := (List.getElem?_eq_some.mp hv).1
      simp only [Option.some.injEq] at hw1
      rw [List.getElem?_set_self hlt, hw1]
    · have hqi : q.toNat ≠ i := by omega
      rw [if_neg hi, List.getElem?_set_ne hqi, hv]
      simp

theorem countPrey_spec (prey : List Int) (eatenBy : List Int)
    (h : ∀ q ∈ prey, 0 ≤ q ∧ q < (eatenBy.length : Int)) :
    ∃ e1, countPrey prey eatenBy = some e1 ∧ e1.length = eatenBy.length ∧
      ∀ (i : Nat) (v : Int), eatenBy[i]? = some v →
        e1[i]? = some (v + (prey.count (i : Int) : Nat)) := by
  induction prey generalizing eatenBy with
  | nil => exact ⟨eatenBy, rfl, rfl, fun i v hv => by simp [hv]⟩
  | cons q rest ih =>
    have hq := h q (List.mem_cons_self _ _)
    obtain ⟨a1, ha1, hlen1, hval1⟩ := incrAt_spec eatenBy q hq.1 hq.2
    have hrest : ∀ x ∈ rest, 0 ≤ x ∧ x < (a1.length : Int) := by
      intro x hx
      rw [hlen1]
      exact h x (List.mem_cons_of_mem _ hx)
    obtain ⟨e1, he1, hlen, hval⟩ := ih a1 hrest
    refine ⟨e1, ?_, hlen.trans hlen1, ?_⟩
    · simp only [countPrey, ha1, he1]
    · intro i v hv
      rw [hval i _ (hval1 i v hv), List.count_cons]
      by_cases hi : q = (i : Int)
      · simp only [hi, if_true, beq_self_eq_true]
        push_cast
        congr 1
        ring
      · have hb : (q == (i : Int)) = false := by simpa using hi
        simp only [hi, if_false, hb]
        push_cast
        congr 1
        ring

theorem countAll_spec (orgs : List Org) (eatenBy : List Int)
    (h : ∀ o ∈ orgs, ∀ q ∈ o.prey, 0 ≤ q ∧ q < (eatenBy.length : Int)) :
    ∃ e1, countAll orgs eatenBy = some e1 ∧ e1.length = eatenBy.length ∧
      ∀ (i : Nat) (v : Int), eatenBy[i]? = some v →
        e1[i]? = some (v + (fanIn orgs i : Nat)) := by
  induction orgs generalizing eatenBy with
  | nil => exact ⟨eatenBy, rfl, rfl, fun i v hv => by simp [hv, fanIn]⟩
  | cons o rest ih =>
    obtain ⟨a1, ha1, hlen1, hval1⟩ :=
      countPrey_spec o.prey eatenBy (h o (List.mem_cons_self _ _))
    have hrest : ∀ x ∈ rest, ∀ q ∈ x.prey, 0 ≤ q ∧ q < (a1.length : Int) := by
      intro x hx q hq
      rw [hlen1]
      exact h x (List.mem_cons_of_mem _ hx) q hq
    obtain ⟨e1, he1, hlen, hval⟩ := ih a1 hrest
    refine ⟨e1, ?_, hlen.trans hlen1, ?_⟩
    · simp only [countAll, ha1, he1]
    · intro i v hv
      rw [hval i _ (hval1 i v hv)]
      simp only [fanIn, List.map_cons, List.sum_cons]
      push_cast
      congr 1
      ring

/-- On a web whose prey indices are in range, `eatenByCounts` returns an array of the
length of the web that holds the fan-in of every node. -/
theorem eatenByCounts_eq (web : List Org) (h : InRange web) :
    ∃ eatenBy, eatenByCounts web = some eatenBy ∧ eatenBy.length = web.length ∧
      ∀ i, i < web.length → eatenBy[i]? = some (fanIn web i : Int) := by
  have h1 : ∀ o ∈ web, ∀ q ∈ o.prey,
      0 ≤ q ∧ q < ((List.replicate web.length (0 : Int)).length : Int) := by
    intro o ho q hq
    rw [List.length_replicate]
    exact h.mem o ho q hq
  obtain ⟨e1, he1, hlen, hval⟩ := countAll_spec web (List.replicate web.length 0) h1
  refine ⟨e1, he1, by simpa using hlen, fun i hi => ?_⟩
  have := hval i 0 (by simp [List.getElem?_replicate, hi])
  simpa using this

theorem fanIn_eq_predatorCount (web : List Org) (i : Nat) (h : ∀ o ∈ web, o.prey.Nodup) :
    fanIn web i = predatorCount web i := by
  induction web with
  | nil => rfl
  | cons o rest ih =>
    have ih1 := ih (fun x hx => h x (List.mem_cons_of_mem _ hx))
    unfold fanIn predatorCount at ih1 ⊢
    have hnd := h o (List.mem_cons_self _ _)
    rw [List.map_cons, List.sum_cons, ih1, List.countP_cons]
    by_cases hm : (i : Int) ∈ o.prey
    · rw [List.count_eq_one_of_mem hnd hm]
      simp [hm]
      omega
    · rw [List.count_eq_zero_of_not_mem hm]
      simp [hm]

/-- C13: on a web whose prey indices are all in range, `eatenByCounts` returns an array
as long as the web whose entry `i` is the number of occurrences of index `i` across all
prey sequences; without duplicates in the prey sequences that is the number of
predators of `i`. -/
theorem eatenByCounts_fanIn (web : List Org) (h : InRange web) :
    ∃ eatenBy, eatenByCounts web = some eatenBy ∧ eatenBy.length = web.length ∧
      (∀ i, i < web.length →
        eatenBy[i]? = some (((web.map (fun o => o.prey.count (i : Int))).sum : Nat) : Int)) ∧
      ((∀ o ∈ web, o.prey.Nodup) → ∀ i, i < web.length →
        eatenBy[i]? = some ((web.countP (fun o => decide ((i : Int) ∈ o.prey)) : Nat) : Int)) := by
  obtain ⟨e, he, hlen, hval⟩ := eatenByCounts_eq web h
  refine ⟨e, he, hlen, hval, fun hnd i hi => ?_⟩
  rw [hval i hi, fanIn_eq_predatorCount web i hnd]
  rfl

theorem eatenByCounts_fanIn_witness :
    InRange sampleWeb ∧
    ∃ eatenBy, eatenByCounts sampleWeb = some eatenBy ∧ eatenBy.length = sampleWeb.length ∧
      (∀ i, i < sampleWeb.length →
        eatenBy[i]? = some (((sampleWeb.map (fun o => o.prey.count (i : Int))).sum : Nat) : Int)) ∧
      ((∀ o ∈ sampleWeb, o.prey.Nodup) → ∀ i, i < sampleWeb.length →
        eatenBy[i]? =
          some ((sampleWeb.countP (fun o => decide ((i : Int) ∈ o.prey)) : Nat) : Int)) :=
  ⟨by decide, eatenByCounts_fanIn sampleWeb (by decide)⟩

/-! ## Vore types -/

theorem getElem?_producerFlags (web : List Org) (i : Nat) (hi : i < web.length) :
    (producerFlags web)[i]? = some (if preyAt web i = [] then 1 else 0) := by
  unfold producerFlags preyAt
  rw [List.getElem?_map, List.getElem?_eq_getElem hi]
  simp only [Option.map_some', List.length_eq_zero]

theorem getAt_producerFlags (web : List Org) (q : Int) (h0 : 0 ≤ q)
    (hn : q < (web.length : Int)) :
    getAt (producerFlags web) q = some (if IsProducer web q then 1 else 0) := by
  unfold getAt IsProducer
  rw [if_neg (by omega)]
  exact getElem?_producerFlags web q.toNat (by omega)

theorem scanDiet_eq (web : List Org) (prey : List Int) (eatsP eatsNP : Bool)
    (h : ∀ q ∈ prey, 0 ≤ q ∧ q < (web.length : Int)) :
    scanDiet (producerFlags web) prey (eatsP, eatsNP)
      = some (eatsP || prey.any (fun q => decide (IsProducer web q)),
              eatsNP || prey.any (fun q => !decide (IsProducer web q))) := by
  induction prey generalizing eatsP eatsNP with
  | nil => simp [scanDiet]
  | cons q rest ih =>
    have hq := h q (List.mem_cons_self _ _)
    have hrest : ∀ x ∈ rest, 0 ≤ x ∧ x < (web.length : Int) :=
      fun x hx => h x (List.mem_cons_of_mem _ hx)
    unfold scanDiet
    rw [getAt_producerFlags web q hq.1 hq.2]
    by_cases hp : IsProducer web q
    · simp [hp, ih _ _ hrest]
    · simp [hp, ih _ _ hrest]

theorem drop_cons_inv {web rest : List Org} {o : Org} {t : Nat} (h : web.drop t = o :: rest) :
    t < web.length ∧ web[t]? = some o ∧ web.drop (t + 1) = rest := by
  have hlt : t < web.length := by
    by_contra hc
    rw [List.drop_eq_nil_of_le (by omega)] at h
    exact List.noConfusion h
  rw [List.drop_eq_getElem_cons hlt] at h
  injection h with h1 h2
  exact ⟨hlt, by rw [List.getElem?_eq_getElem hlt, h1], h2⟩

theorem preyAt_of_getElem? {web : List Org} {t : Nat} {o : Org} (h : web[t]? = some o) :
    preyAt web t = o.prey := by
  unfold preyAt
  rw [h]

theorem voreLoop_eq (web : List Org) (keep : Bool → Bool → Bool) (hr : InRange web)
    (rest : List Org) (t : Nat) (hd : web.drop t = rest) :
    voreLoop (producerFlags web) keep t rest
      = some ((List.range' t rest.length).filter (keptBy web keep)) := by
  induction rest generalizing t with
  | nil => rfl
  | cons o rest ih =>
    obtain ⟨hlt, ho, hd1⟩ := drop_cons_inv hd
    have hprey := preyAt_of_getElem? ho
    unfold voreLoop
    rw [getElem?_producerFlags web t hlt, ih (t + 1) hd1]
    simp only [List.length_cons, List.range'_succ, List.filter_cons]
    by_cases he : preyAt web t = []
    · simp [he, keptBy]
    · have hin : ∀ q ∈ o.prey, 0 ≤ q ∧ q < (web.length : Int) := by
        rw [← hprey]
        exact hr t hlt
      rw [scanDiet_eq web o.prey false false hin]
      simp only [he, if_false, Bool.false_or, ← hprey]
      simp only [keptBy, eatsProducer, eatsNonProducer, he, decide_False, Bool.not_false,
        Bool.true_and]
      simp

/-- The groups printed by `printVoreTypes` on a web whose prey indices are in range. -/
theorem printVoreTypes_eq (web : List Org) (hr : InRange web) :
    printVoreTypes web = some (VoreTypes.mk
      ((List.range web.length).filter (fun i => decide (preyAt web i = [])))
      ((List.range web.length).filter (keptBy web (fun eatsP eatsNP => eatsP && !eatsNP)))
      ((List.range web.length).filter (keptBy web (fun eatsP eatsNP => eatsP && eatsNP)))
      ((List.range web.length).filter (keptBy web (fun eatsP eatsNP => !eatsP && eatsNP)))) := by
  unfold printVoreTypes
  simp only [voreLoop_eq web _ hr web 0 rfl, ← List.range_eq_range']
  congr 2
  apply List.filter_congr
  intro i hi
  rw [getElem?_producerFlags web i (List.mem_range.mp hi)]
  by_cases he : preyAt web i = [] <;> simp [he]

theorem count_filter_range (n i : Nat) (f : Nat → Bool) (hi : i < n) :
    ((List.range n).filter f).count i = if f i = true then 1 else 0 := by
  by_cases hf : f i = true
  · rw [if_pos hf]
    exact List.count_eq_one_of_mem ((List.nodup_range n).filter _)
      (List.mem_filter.mpr ⟨List.mem_range.mpr hi, hf⟩)
  · rw [if_neg hf]
    exact List.count_eq_zero_of_not_mem (fun hm => hf (List.mem_filter.mp hm).2)

theorem eatsProducer_iff (web : List Org) (i : Nat) :
    eatsProducer web i = true ↔ ∃ q ∈ preyAt web i, IsProducer web q := by
  simp [eatsProducer, List.any_eq_true]

theorem eatsNonProducer_iff (web : List Org) (i : Nat) :
    eatsNonProducer web i = true ↔ ∃ q ∈ preyAt web i, ¬ IsProducer web q := by
  simp [eatsNonProducer, List.any_eq_true]

theorem eats_some (web : List Org) (i : Nat) (he : preyAt web i ≠ []) :
    eatsProducer web i = true ∨ eatsNonProducer web i = true := by
  obtain ⟨q, hq⟩ := List.exists_mem_of_ne_nil _ he
  by_cases hp : IsProducer web q
  · exact Or.inl ((eatsProducer_iff web i).mpr ⟨q, hq, hp⟩)
  · exact Or.inr ((eatsNonProducer_iff web i).mpr ⟨q, hq, hp⟩)

theorem vore_indicator (a b : Bool) (h : a = true ∨ b = true) :
    ((if (a && !b) = true then 1 else 0) + (if (a && b) = true then 1 else 0)
      + (if (!a && b) = true then 1 else 0) : Nat) = 1 := by
  cases a <;> cases b <;> simp at h ⊢

theorem length_filter_range_eq_countP (web : List Org) (f : Org → Bool) :
    ((List.range web.length).filter
      (fun i => match web[i]? with | none => false | some o => f o)).length
      = web.countP f := by
  induction web using List.reverseRecOn with
  | nil => rfl
  | append_singleton web o ih =>
    rw [List.length_append, List.length_singleton, List.range_succ, List.filter_append,
      List.length_append, List.countP_append]
    congr 1
    · rw [← ih]
      congr 1
      apply List.filter_congr
      intro i hi
      rw [List.getElem?_append_left (List.mem_range.mp hi)]
    · simp only [List.filter_cons, List.filter_nil, List.getElem?_concat_length,
        List.countP_cons, List.countP_nil]
      by_cases hf : f o = true <;> simp [hf]

/-- C14: on a well-formed web `printVoreTypes` lists a node under Producers exactly
when it has no prey; a node with prey is listed under Herbivores exactly when all its
prey are producers, under Carnivores exactly when none is, and under Omnivores exactly
when it has a producer and a non-producer among its prey. -/
theorem printVoreTypes_classifies (web : List Org) (hwf : WellFormed web) :
    ∃ v, printVoreTypes web = some v ∧ ∀ i, i < web.length →
      (i ∈ v.producers ↔ preyAt web i = []) ∧
      (preyAt web i ≠ [] →
        (i ∈ v.herbivores ↔ ∀ q ∈ preyAt web i, preyAt web q.toNat = []) ∧
        (i ∈ v.carnivores ↔ ∀ q ∈ preyAt web i, preyAt web q.toNat ≠ []) ∧
        (i ∈ v.omnivores ↔
          (∃ q ∈ preyAt web i, preyAt web q.toNat = []) ∧
          (∃ q ∈ preyAt web i, preyAt web q.toNat ≠ []))) := by
  refine ⟨_, printVoreTypes_eq web hwf.inRange, fun i hi => ⟨?_, fun he => ⟨?_, ?_, ?_⟩⟩⟩
  · simp [List.mem_filter, List.mem_range, hi]
  · have hsome := eats_some web i he
    have hP := eatsProducer_iff web i
    have hN := eatsNonProducer_iff web i
    unfold IsProducer at hP hN
    simp only [List.mem_filter, List.mem_range, hi, true_and, keptBy, he, decide_False,
      Bool.not_false, Bool.true_and, Bool.and_eq_true, Bool.not_eq_true']
    constructor
    · rintro ⟨_, h2⟩ q hq
      by_contra hc
      have := hN.mpr ⟨q, hq, hc⟩
      rw [h2] at this
      exact Bool.noConfusion this
    · intro hall
      have hn : eatsNonProducer web i = false := by
        cases hb : eatsNonProducer web i with
        | false => rfl
        | true =>
          obtain ⟨q, hq, hc⟩ := hN.mp hb
          exact absurd (hall q hq) hc
      refine ⟨?_, hn⟩
      rcases hsome with h1 | h1
      · exact h1
      · rw [hn] at h1
        exact Bool.noConfusion h1
  · have hsome := eats_some web i he
    have hP := eatsProducer_iff web i
    have hN := eatsNonProducer_iff web i
    unfold IsProducer at hP hN
    simp only [List.mem_filter, List.mem_range, hi, true_and, keptBy, he, decide_False,
      Bool.not_false, Bool.true_and, Bool.and_eq_true, Bool.not_eq_true']
    constructor
    · rintro ⟨h1, _⟩ q hq hc
      have := hP.mpr ⟨q, hq, hc⟩
      rw [h1] at this
      exact Bool.noConfusion this
    · intro hall
      have hp : eatsProducer web i = false := by
        cases hb : eatsProducer web i with
        | false => rfl
        | true =>
          obtain ⟨q, hq, hc⟩ := hP.mp hb
          exact absurd hc (hall q hq)
      refine ⟨hp, ?_⟩
      rcases hsome with h1 | h1
      · rw [hp] at h1
        exact Bool.noConfusion h1
      · exact h1
  · have hP := eatsProducer_iff web i
    have hN := eatsNonProducer_iff web i
    unfold IsProducer at hP hN
    simp only [List.mem_filter, List.mem_range, hi, true_and, keptBy, he, decide_False,
      Bool.not_false, Bool.true_and, Bool.and_eq_true]
    rw [hP, hN]

theorem printVoreTypes_classifies_witness :
    WellFormed sampleWeb ∧
    ∃ v, printVoreTypes sampleWeb = some v ∧ ∀ i, i < sampleWeb.length →
      (i ∈ v.producers ↔ preyAt sampleWeb i = []) ∧
      (preyAt sampleWeb i ≠ [] →
        (i ∈ v.herbivores ↔ ∀ q ∈ preyAt sampleWeb i, preyAt sampleWeb q.toNat = []) ∧
        (i ∈ v.carnivores ↔ ∀ q ∈ preyAt sampleWeb i, preyAt sampleWeb q.toNat ≠ []) ∧
        (i ∈ v.omnivores ↔
          (∃ q ∈ preyAt sampleWeb i, preyAt sampleWeb q.toNat = []) ∧
          (∃ q ∈ preyAt sampleWeb i, preyAt sampleWeb q.toNat ≠ []))) :=
  ⟨by decide, printVoreTypes_classifies sampleWeb (by decide)⟩

/-- C15: on a well-formed web every node is printed by `printVoreTypes` exactly once,
in exactly one of the four groups; a node with prey is in exactly one of Herbivores,
Omnivores, Carnivores; only nodes of the web are printed; and the number of nodes
listed as Producers is the number of nodes with an empty prey sequence. -/
theorem printVoreTypes_partition (web : List Org) (hwf : WellFormed web) :
    ∃ v, printVoreTypes web = some v ∧
      (∀ i, i < web.length →
        v.producers.count i + v.herbivores.count i + v.omnivores.count i
          + v.carnivores.count i = 1) ∧
      (∀ i, i < web.length → preyAt web i ≠ [] →
        v.producers.count i = 0 ∧
        v.herbivores.count i + v.omnivores.count i + v.carnivores.count i = 1) ∧
      (∀ i, i ∈ v.producers ++ v.herbivores ++ v.omnivores ++ v.carnivores →
        i < web.length) ∧
      v.producers.length = web.countP (fun o => decide (o.prey = [])) := by
  refine ⟨_, printVoreTypes_eq web hwf.inRange, ?_, ?_, ?_, ?_⟩
  · intro i hi
    simp only [count_filter_range _ i _ hi, keptBy]
    by_cases he : preyAt web i = []
    · simp [he]
    · simp only [he, decide_False, Bool.not_false, Bool.true_and, Bool.false_eq_true,
        if_false, Nat.zero_add]
      exact vore_indicator _ _ (eats_some web i he)
  · intro i hi he
    simp only [count_filter_range _ i _ hi, keptBy]
    simp only [he, decide_False, Bool.not_false, Bool.true_and, Bool.false_eq_true,
      if_false, true_and]
    exact vore_indicator _ _ (eats_some web i he)
  · intro i hm
    simp only [List.mem_append, List.mem_filter, List.mem_range] at hm
    rcases hm with ((h | h) | h) | h <;> exact h.1
  · rw [← length_filter_range_eq_countP]
    congr 1
    apply List.filter_congr
    intro i hi
    unfold preyAt
    rw [List.getElem?_eq_getElem (List.mem_range.mp hi)]

theorem printVoreTypes_partition_witness :
    WellFormed sampleWeb ∧
    ∃ v, printVoreTypes sampleWeb = some v ∧
      (∀ i, i < sampleWeb.length →
        v.producers.count i + v.herbivores.count i + v.omnivores.count i
          + v.carnivores.count i = 1) ∧
      (∀ i, i < sampleWeb.length → preyAt sampleWeb i ≠ [] →
        v.producers.count i = 0 ∧
        v.herbivores.count i + v.omnivores.count i + v.carnivores.count i = 1) ∧
      (∀ i, i ∈ v.producers ++ v.herbivores ++ v.omnivores ++ v.carnivores →
        i < sampleWeb.length) ∧
      v.producers.length = sampleWeb.countP (fun o => decide (o.prey = [])) :=
  ⟨by decide, printVoreTypes_partition sampleWeb (by decide)⟩

/-! ## One pass of the height relaxation -/

theorem maxPreyHeightLoop_eq (height prey : List Int) (m : Int)
    (h : ∀ q ∈ prey, 0 ≤ q ∧ q < (height.length : Int)) :
    maxPreyHeightLoop height prey m = some (maxList (prey.map (valAt height)) m) := by
  induction prey generalizing m with
  | nil => rfl
  | cons q rest ih =>
    have hq := h q (List.mem_cons_self _ _)
    have hrest : ∀ x ∈ rest, 0 ≤ x ∧ x < (height.length : Int) :=
      fun x hx => h x (List.mem_cons_of_mem _ hx)
    obtain ⟨v, hv, _⟩ := getAt_eq_some hq.1 hq.2
    have hval : valAt height q = v := by unfold valAt; rw [hv]; rfl
    unfold maxPreyHeightLoop
    rw [hv]
    simp only [List.map_cons, maxList, List.foldl_cons, hval]
    by_cases hgt : v > m
    · rw [if_pos hgt, ih v hrest, max_eq_right (le_of_lt hgt)]
      rfl
    · rw [if_neg hgt, ih m hrest, max_eq_left (not_lt.mp hgt)]
      rfl

theorem newHeight_eq (web : List Org) (height : List Int) (t : Nat) (hr : InRange web)
    (hlen : height.length = web.length) :
    newHeight height (preyAt web t) = some (newHeightOf web height t) := by
  unfold newHeight newHeightOf
  by_cases he : preyAt web t = []
  · simp [he]
  · have hpos : (preyAt web t).length > 0 := List.length_pos.mpr he
    have ht : t < web.length := by
      by_contra hc
      apply he
      unfold preyAt
      rw [List.getElem?_eq_none (by omega)]
    rw [if_pos hpos, if_neg he, maxPreyHeightLoop_eq height _ 0 (by rw [hlen]; exact hr t ht)]

theorem relaxFrom_cons (web : List Org) (hr : InRange web) (o : Org) (rest : List Org)
    (t : Nat) (height : List Int) (change : Bool) (hlen : height.length = web.length)
    (hd : web.drop t = o :: rest) :
    relaxFrom t (o :: rest) height change
      = relaxFrom (t + 1) rest (height.set t (newHeightOf web height t))
          (change || decide (newHeightOf web height t ≠ (height[t]?).getD 0)) := by
  obtain ⟨hlt, ho, _⟩ := drop_cons_inv hd
  have hlt1 : t < height.length := by omega
  rw [relaxFrom, ← preyAt_of_getElem? ho, newHeight_eq web height t hr hlen,
    List.getElem?_eq_getElem hlt1]
  simp only [Option.getD_some]
  by_cases hne : newHeightOf web height t ≠ height[t]
  · simp [hne]
  · have heq : newHeightOf web height t = height[t] := not_not.mp hne
    have hset : height.set t (newHeightOf web height t) = height := by
      rw [heq]
      apply List.ext_getElem? 
      intro j
      by_cases hj : t = j
      · subst hj
        rw [List.getElem?_set_self hlt1, List.getElem?_eq_getElem hlt1]
      · rw [List.getElem?_set_ne hj]
    simp [hne, hset]

/-- Loop rule for one pass: a property of the position, the heights and the flag that
every node step preserves holds when the pass ends, and the pass makes no access out of
bounds. -/
theorem relaxFrom_inv (web : List Org) (hr : InRange web)
    (P : Nat → List Int → Bool → Prop)
    (hstep : ∀ (t : Nat) (height : List Int) (change : Bool), t < web.length →
      height.length = web.length → P t height change →
      P (t + 1) (height.set t (newHeightOf web height t))
        (change || decide (newHeightOf web height t ≠ (height[t]?).getD 0)))
    (rest : List Org) (t : Nat) (height : List Int) (change : Bool)
    (hd : web.drop t = rest) (ht : t ≤ web.length) (hlen : height.length = web.length)
    (hP : P t height change) :
    ∃ h1 c1, relaxFrom t rest height change = some (h1, c1) ∧ h1.length = web.length ∧
      P web.length h1 c1 := by
  induction rest generalizing t height change with
  | nil =>
    have : t = web.length := by
      have := List.drop_eq_nil_iff.mp hd
      omega
    subst this
    exact ⟨height, change, rfl, hlen, hP⟩
  | cons o rest ih =>
    obtain ⟨hlt, _, hd1⟩ := drop_cons_inv hd
    rw [relaxFrom_cons web hr o rest t height change hlen hd]
    exact ih (t + 1) _ _ hd1 hlt (by rw [List.length_set]; exact hlen)
      (hstep t height change hlt hlen hP)

theorem set_getD_self (height : List Int) (t : Nat) :
    height.set t ((height[t]?).getD 0) = height := by
  apply List.ext_getElem?
  intro j
  by_cases hj : t = j
  · subst hj
    by_cases hlt : t < height.length
    · rw [List.getElem?_set_self hlt, List.getElem?_eq_getElem hlt]
      rfl
    · rw [List.set_eq_of_length_le (by omega)]
  · rw [List.getElem?_set_ne hj]

theorem relaxFrom_isSome (web : List Org) (hr : InRange web) (height : List Int)
    (change : Bool) (hlen : height.length = web.length) :
    ∃ h1 c1, relaxFrom 0 web height change = some (h1, c1) ∧ h1.length = web.length := by
  obtain ⟨h1, c1, he, hl, _⟩ := relaxFrom_inv web hr (fun _ _ _ => True)
    (fun _ _ _ _ _ _ => trivial) web 0 height change rfl (Nat.zero_le _) hlen trivial
  exact ⟨h1, c1, he, hl⟩

/-- A pass that leaves the flag down has rewritten nothing, and its heights are a fixed
point of the relaxation rule. -/
theorem relaxFrom_nochange (web : List Org) (hr : InRange web) (h0 h1 : List Int)
    (hlen : h0.length = web.length) (he : relaxFrom 0 web h0 false = some (h1, false)) :
    h1 = h0 ∧ IsFixed web h0 := by
  obtain ⟨h2, c2, he2, _, hP⟩ := relaxFrom_inv web hr
    (fun t h c => c = false →
      h = h0 ∧ ∀ j, j < t → newHeightOf web h0 j = (h0[j]?).getD 0)
    (by
      intro t h c _ _ hP hc
      simp only [Bool.or_eq_false_iff, decide_eq_false_iff_not, not_not] at hc
      obtain ⟨hh, hfix⟩ := hP hc.1
      subst hh
      refine ⟨by rw [hc.2]; exact set_getD_self h t, fun j hj => ?_⟩
      by_cases hjt : j = t
      · rw [hjt]; exact hc.2
      · exact hfix j (by omega))
    web 0 h0 false rfl (Nat.zero_le _) hlen (fun _ => ⟨rfl, fun j hj => absurd hj (Nat.not_lt_zero j)⟩)
  rw [he] at he2
  simp only [Option.some.injEq, Prod.mk.injEq] at he2
  obtain ⟨rfl, rfl⟩ := he2
  obtain ⟨hh, hfix⟩ := hP rfl
  exact ⟨hh, hlen, hfix⟩

/-- A pass over a fixed point rewrites nothing and leaves the flag as it was. -/
theorem relaxFrom_stable (web : List Org) (hr : InRange web) (h0 : List Int) (change : Bool)
    (hfix : IsFixed web h0) : relaxFrom 0 web h0 change = some (h0, change) := by
  obtain ⟨h2, c2, he2, _, hP⟩ := relaxFrom_inv web hr
    (fun _ h c => h = h0 ∧ c = change)
    (by
      intro t h c ht _ hP
      obtain ⟨rfl, rfl⟩ := hP
      rw [hfix.2 t ht]
      exact ⟨set_getD_self h t, by simp⟩)
    web 0 h0 change rfl (Nat.zero_le _) hfix.1 ⟨rfl, rfl⟩
  rw [he2, hP.1, hP.2]

/-! ## The relaxation loop -/

theorem relaxLoop_ne_outOfBounds (web : List Org) (hr : InRange web) (fuel : Nat)
    (height : List Int) (hlen : height.length = web.length) :
    relaxLoop web fuel height ≠ Except.error Fault.outOfBounds := by
  induction fuel generalizing height with
  | zero => simp [relaxLoop]
  | succ fuel ih =>
    obtain ⟨h1, c1, he, hl⟩ := relaxFrom_isSome web hr height false hlen
    rw [relaxLoop, he]
    simp only
    cases c1 with
    | true => simpa using ih h1 hl
    | false => simp

theorem relaxLoop_ok_fixed (web : List Org) (hr : InRange web) (fuel : Nat)
    (height h : List Int) (hlen : height.length = web.length)
    (hok : relaxLoop web fuel height = Except.ok h) : IsFixed web h := by
  induction fuel generalizing height with
  | zero => simp [relaxLoop] at hok
  | succ fuel ih =>
    obtain ⟨h1, c1, he, hl⟩ := relaxFrom_isSome web hr height false hlen
    rw [relaxLoop, he] at hok
    simp only at hok
    cases c1 with
    | true =>
      simp only [if_true] at hok
      exact ih h1 hl hok
    | false =>
      simp only [Bool.false_eq_true, if_false, Except.ok.injEq] at hok
      subst hok
      obtain ⟨hh, hfix⟩ := relaxFrom_nochange web hr height h1 hlen he
      rw [hh]
      exact hfix

theorem relaxLoop_of_fixed (web : List Org) (hr : InRange web) (fuel : Nat) (h : List Int)
    (hfix : IsFixed web h) : relaxLoop web (fuel + 1) h = Except.ok h := by
  rw [relaxLoop, relaxFrom_stable web hr h false hfix]
  simp

/-! ## Fixed points of the relaxation rule -/

theorem le_maxList (vals : List Int) (m : Int) : m ≤ maxList vals m := by
  induction vals generalizing m with
  | nil => exact le_refl m
  | cons v rest ih =>
    simp only [maxList, List.foldl_cons]
    exact le_trans (le_max_left m v) (ih (max m v))

theorem mem_le_maxList (vals : List Int) (m v : Int) (hv : v ∈ vals) : v ≤ maxList vals m := by
  induction vals generalizing m with
  | nil => exact absurd hv (List.not_mem_nil _)
  | cons w rest ih =>
    simp only [maxList, List.foldl_cons]
    rcases List.mem_cons.mp hv with h | h
    · rw [h]
      exact le_trans (le_max_right m w) (le_maxList rest (max m w))
    · exact ih (max m w) h

theorem maxList_eq_or_mem (vals : List Int) (m : Int) :
    maxList vals m = m ∨ maxList vals m ∈ vals := by
  induction vals generalizing m with
  | nil => exact Or.inl rfl
  | cons w rest ih =>
    simp only [maxList, List.foldl_cons]
    rcases ih (max m w) with h | h
    · rcases max_choice m w with hm | hm
      · left
        exact h.trans hm
      · right
        have : maxList rest (max m w) = w := h.trans hm
        unfold maxList at this
        rw [this]
        exact List.mem_cons_self _ _
    · right
      exact List.mem_cons_of_mem _ h

theorem newHeightOf_nonneg (web : List Org) (height : List Int) (t : Nat) :
    0 ≤ newHeightOf web height t := by
  unfold newHeightOf
  split
  · exact le_refl 0
  · have := le_maxList ((preyAt web t).map (valAt height)) 0
    omega

theorem preyAt_eq_nil_of_le (web : List Org) (p : Nat) (h : web.length ≤ p) :
    preyAt web p = [] := by
  unfold preyAt
  rw [List.getElem?_eq_none h]

theorem valAt_of_getElem? {height : List Int} {q : Int} {v : Int} (h0 : 0 ≤ q)
    (h : height[q.toNat]? = some v) : getAt height q = some v ∧ valAt height q = v := by
  have hg : getAt height q = some v := by
    unfold getAt
    rw [if_neg (by omega), h]
  exact ⟨hg, by unfold valAt; rw [hg]; rfl⟩

theorem IsFixed.getElem? {web : List Org} {h : List Int} (hfix : IsFixed web h) (j : Nat)
    (hj : j < web.length) : h[j]? = some (newHeightOf web h j) := by
  have hlt : j < h.length := by rw [hfix.1]; exact hj
  have := hfix.2 j hj
  rw [List.getElem?_eq_getElem hlt] at this ⊢
  simp only [Option.getD_some] at this
  rw [this]

theorem IsFixed.read {web : List Org} {h : List Int} (hfix : IsFixed web h)
    (hr : InRange web) (p : Nat) (q : Int) (hq : q ∈ preyAt web p) :
    getAt h q = some (newHeightOf web h q.toNat) ∧ valAt h q = newHeightOf web h q.toNat := by
  have hp : p < web.length := by
    by_contra hc
    rw [preyAt_eq_nil_of_le web p (by omega)] at hq
    exact absurd hq (List.not_mem_nil _)
  have hin := hr p hp q hq
  exact valAt_of_getElem? hin.1 (hfix.getElem? q.toNat (by omega))

/-- At a fixed point of the relaxation rule the height of a predator exceeds the height
of each of its prey. -/
theorem IsFixed.fixed_prey_lt {web : List Org} {h : List Int} (hfix : IsFixed web h)
    (hr : InRange web) (p : Nat) (q : Int) (hq : q ∈ preyAt web p) :
    newHeightOf web h q.toNat < newHeightOf web h p := by
  have hv := (hfix.read hr p q hq).2
  have hne : preyAt web p ≠ [] := List.ne_nil_of_mem hq
  have hle := mem_le_maxList ((preyAt web p).map (valAt h)) 0 (valAt h q)
    (List.mem_map_of_mem _ hq)
  rw [hv] at hle
  conv_rhs => unfold newHeightOf
  rw [if_neg hne]
  omega

/-- A fixed point of the relaxation rule meets the recursive definition of the height
at every node. -/
theorem IsFixed.heightAt {web : List Org} {h : List Int} (hfix : IsFixed web h)
    (hr : InRange web) (p : Nat) (hp : p < web.length) : HeightAt web h p := by
  have hget := hfix.getElem? p hp
  constructor
  · intro he
    rw [hget]
    unfold newHeightOf
    rw [if_pos he]
  · intro hne
    refine ⟨newHeightOf web h p, hget, ?_, ?_⟩
    · intro q hq
      exact ⟨_, (hfix.read hr p q hq).1, by have := hfix.fixed_prey_lt hr p q hq; omega⟩
    · have hval : newHeightOf web h p - 1 = maxList ((preyAt web p).map (valAt h)) 0 := by
        unfold newHeightOf
        rw [if_neg hne]
        omega
      rw [hval]
      rcases maxList_eq_or_mem ((preyAt web p).map (valAt h)) 0 with h0 | hm
      · obtain ⟨q, hq⟩ := List.exists_mem_of_ne_nil _ hne
        refine ⟨q, hq, ?_⟩
        have h1 := hfix.read hr p q hq
        have h2 := mem_le_maxList ((preyAt web p).map (valAt h)) 0 (valAt h q)
          (List.mem_map_of_mem _ hq)
        have h3 := newHeightOf_nonneg web h q.toNat
        rw [h1.1, h0]
        rw [h1.2, h0] at h2
        congr 1
        omega
      · obtain ⟨q, hq, hqv⟩ := List.mem_map.mp hm
        refine ⟨q, hq, ?_⟩
        rw [(hfix.read hr p q hq).1, ← hqv, (hfix.read hr p q hq).2]

theorem acyclic_of_rank (web : List Org) (rank : Nat → Nat)
    (h : ∀ p q, Eats web p q → rank q < rank p) : Acyclic web := by
  have key : ∀ p q, Relation.TransGen (Eats web) p q → rank q < rank p := by
    intro p q hpq
    induction hpq with
    | single hab => exact h _ _ hab
    | tail _ hbc ih => exact lt_trans (h _ _ hbc) ih
  exact fun p hp => lt_irrefl _ (key p p hp)

/-- A web on which the relaxation rule has a fixed point has no cycle. -/
theorem IsFixed.acyclic {web : List Org} {h : List Int} (hfix : IsFixed web h)
    (hr : InRange web) : Acyclic web := by
  apply acyclic_of_rank web (fun j => (newHeightOf web h j).toNat)
  intro p q hpq
  have hlt := hfix.fixed_prey_lt hr p (q : Int) hpq
  have h0 := newHeightOf_nonneg web h q
  simp only [Int.toNat_ofNat] at hlt
  omega

/-! ## Acyclic webs -/

theorem eats_lt (web : List Org) (hr : InRange web) (p q : Nat) (h : Eats web p q) :
    p < web.length ∧ q < web.length := by
  have hp : p < web.length := by
    by_contra hc
    unfold Eats at h
    rw [preyAt_eq_nil_of_le web p (by omega)] at h
    exact absurd h (List.not_mem_nil _)
  have := hr p hp (q : Int) h
  exact ⟨hp, by omega⟩

theorem eats_toNat (web : List Org) (hr : InRange web) (p : Nat) (e : Int)
    (he : e ∈ preyAt web p) : Eats web p e.toNat := by
  have hp : p < web.length := by
    by_contra hc
    rw [preyAt_eq_nil_of_le web p (by omega)] at he
    exact absurd he (List.not_mem_nil _)
  have h0 := (hr p hp e he).1
  unfold Eats
  rw [Int.toNat_of_nonneg h0]
  exact he

/-- On an acyclic web with prey indices in range the prey relation is well-founded. -/
theorem wellFounded_eats (web : List Org) (hr : InRange web) (hac : Acyclic web) :
    WellFounded (Function.swap (Eats web)) := by
  let r : Fin web.length → Fin web.length → Prop :=
    fun a b => Relation.TransGen (Function.swap (Eats web)) a.val b.val
  have htrans : IsTrans (Fin web.length) r := ⟨fun _ _ _ h1 h2 => Relation.TransGen.trans h1 h2⟩
  have hirr : IsIrrefl (Fin web.length) r :=
    ⟨fun a h => hac a.val (Relation.transGen_swap.mp h)⟩
  have hwf : WellFounded r := Finite.wellFounded_of_trans_of_irrefl r
  have hacc : ∀ a : Fin web.length, Acc (Function.swap (Eats web)) a.val := by
    intro a
    induction a using hwf.induction with
    | _ a ih =>
      refine Acc.intro _ (fun q hq => ?_)
      have hq1 := (eats_lt web hr a.val q hq).2
      exact ih ⟨q, hq1⟩ (Relation.TransGen.single hq)
  refine ⟨fun p => ?_⟩
  by_cases hp : p < web.length
  · exact hacc ⟨p, hp⟩
  · exact Acc.intro _ (fun q hq => absurd (eats_lt web hr p q hq).1 hp)

/-- On an acyclic web with prey indices in range the recursive definition of the height
has a solution. -/
theorem exists_height (web : List Org) (hr : InRange web) (hac : Acyclic web) :
    ∃ H : Nat → Int, SolvesHeight web H := by
  have hwf := wellFounded_eats web hr hac
  let F : (p : Nat) → ((q : Nat) → Function.swap (Eats web) q p → Int) → Int :=
    fun p rec =>
      if preyAt web p = [] then 0
      else maxList ((preyAt web p).attach.map
        (fun e => rec e.val.toNat (eats_toNat web hr p e.val e.property))) 0 + 1
  refine ⟨hwf.fix F, fun p => ?_⟩
  rw [hwf.fix_eq]
  by_cases he : preyAt web p = []
  · simp only [F, if_pos he]
  · simp only [F, if_neg he]
    congr 2
    exact List.attach_map_val (preyAt web p) (fun q => hwf.fix F q.toNat)

theorem exists_bound (n : Nat) (H : Nat → Int) : ∃ B : Nat, ∀ j, j < n → H j < (B : Int) := by
  induction n with
  | zero => exact ⟨0, fun j hj => absurd hj (Nat.not_lt_zero j)⟩
  | succ n ih =>
    obtain ⟨B, hB⟩ := ih
    refine ⟨B + (H n).toNat + 1, fun j hj => ?_⟩
    by_cases hjn : j < n
    · have := hB j hjn
      omega
    · have : j = n := by omega
      subst this
      omega

theorem SolvesHeight.nonneg {web : List Org} {H : Nat → Int} (hH : SolvesHeight web H)
    (p : Nat) : 0 ≤ H p := by
  rw [hH p]
  split
  · exact le_refl 0
  · have := le_maxList ((preyAt web p).map (fun q => H q.toNat)) 0
    omega

theorem SolvesHeight.solves_prey_lt {web : List Org} {H : Nat → Int} (hH : SolvesHeight web H)
    (p : Nat) (q : Int) (hq : q ∈ preyAt web p) : H q.toNat < H p := by
  have hne : preyAt web p ≠ [] := List.ne_nil_of_mem hq
  have hle := mem_le_maxList ((preyAt web p).map (fun q => H q.toNat)) 0 (H q.toNat)
    (List.mem_map.mpr ⟨q, hq, rfl⟩)
  rw [hH p, if_neg hne]
  omega

/-- Where the current heights of the prey of node `t` are their true heights, the
relaxation rule gives node `t` its true height. -/
theorem newHeightOf_eq_of_agree {web : List Org} {H : Nat → Int} (hH : SolvesHeight web H)
    (hr : InRange web) (height : List Int) (t : Nat)
    (hag : ∀ q ∈ preyAt web t, height[q.toNat]? = some (H q.toNat)) :
    newHeightOf web height t = H t := by
  rw [hH t]
  unfold newHeightOf
  by_cases he : preyAt web t = []
  · rw [if_pos he, if_pos he]
  · rw [if_neg he, if_neg he]
    congr 2
    apply List.map_congr_left
    intro q hq
    have ht : t < web.length := by
      by_contra hc
      exact he (preyAt_eq_nil_of_le web t (by omega))
    exact (valAt_of_getElem? (hr t ht q hq).1 (hag q hq)).2

/-- One pass raises by one the level below which every height is the true height. -/
theorem relaxFrom_progress {web : List Org} {H : Nat → Int} (hH : SolvesHeight web H)
    (hr : InRange web) (k : Nat) (height : List Int) (change : Bool)
    (hlen : height.length = web.length)
    (hk : ∀ j, j < web.length → H j < (k : Int) → height[j]? = some (H j)) :
    ∃ h1 c1, relaxFrom 0 web height change = some (h1, c1) ∧ h1.length = web.length ∧
      ∀ j, j < web.length → H j < ((k + 1 : Nat) : Int) → h1[j]? = some (H j) := by
  obtain ⟨h1, c1, he, hl, hP⟩ := relaxFrom_inv web hr
    (fun t h _ => (∀ j, j < web.length → H j < (k : Int) → h[j]? = some (H j)) ∧
      (∀ j, j < t → H j < ((k + 1 : Nat) : Int) → h[j]? = some (H j)))
    (by
      intro t h c ht hlen1 hP
      have hnew : H t < ((k + 1 : Nat) : Int) → newHeightOf web h t = H t := by
        intro hlt
        apply newHeightOf_eq_of_agree hH hr h t
        intro q hq
        have h1 := hH.solves_prey_lt t q hq
        have h2 := hr t ht q hq
        exact hP.1 q.toNat (by omega) (by push_cast at hlt; omega)
      have hlt1 : t < h.length := by omega
      constructor
      · intro j hj hjk
        by_cases hjt : t = j
        · subst hjt
          rw [List.getElem?_set_self hlt1, hnew (by push_cast; omega)]
        · rw [List.getElem?_set_ne hjt]
          exact hP.1 j hj hjk
      · intro j hj hjk
        by_cases hjt : t = j
        · subst hjt
          rw [List.getElem?_set_self hlt1, hnew hjk]
        · rw [List.getElem?_set_ne hjt]
          exact hP.2 j (by omega) hjk)
    web 0 height change rfl (Nat.zero_le _) hlen
    ⟨hk, fun j hj => absurd hj (Nat.not_lt_zero j)⟩
  exact ⟨h1, c1, he, hl, fun j hj hjk => hP.2 j hj hjk⟩

theorem isFixed_of_agree {web : List Org} {H : Nat → Int} (hH : SolvesHeight web H)
    (hr : InRange web) (height : List Int) (hlen : height.length = web.length)
    (hag : ∀ j, j < web.length → height[j]? = some (H j)) : IsFixed web height := by
  refine ⟨hlen, fun j hj => ?_⟩
  rw [hag j hj]
  apply newHeightOf_eq_of_agree hH hr height j
  intro q hq
  exact hag q.toNat (by have := hr j hj q hq; omega)

/-- With the true heights below `B`, the loop started from heights that are right below
level `k` returns once it may make `B + 1 - k` passes. -/
theorem relaxLoop_terminates {web : List Org} {H : Nat → Int} (hH : SolvesHeight web H)
    (hr : InRange web) (B : Nat) (hB : ∀ j, j < web.length → H j < (B : Int)) (fuel : Nat) :
    ∀ (k : Nat) (height : List Int), height.length = web.length →
      (∀ j, j < web.length → H j < (k : Int) → height[j]? = some (H j)) →
      B + 1 ≤ k + fuel → 1 ≤ fuel → ∃ h, relaxLoop web fuel height = Except.ok h := by
  induction fuel with
  | zero => intro _ _ _ _ _ h1; omega
  | succ fuel ih =>
    intro k height hlen hk hfuel _
    obtain ⟨h1, c1, he, hl, hk1⟩ := relaxFrom_progress hH hr k height false hlen hk
    rw [relaxLoop, he]
    simp only
    cases c1 with
    | false => exact ⟨h1, by simp⟩
    | true =>
      simp only [if_true]
      by_cases hf : fuel = 0
      · exfalso
        have hfix : IsFixed web height := by
          apply isFixed_of_agree hH hr height hlen
          intro j hj
          have := hB j hj
          exact hk j hj (by omega)
        rw [relaxFrom_stable web hr height false hfix] at he
        simp at he
      · exact ih (k + 1) h1 hl hk1 (by omega) (by omega)

theorem relaxLoop_mono (web : List Org) (fuel : Nat) (height h : List Int)
    (hok : relaxLoop web fuel height = Except.ok h) :
    relaxLoop web (fuel + 1) height = Except.ok h := by
  induction fuel generalizing height with
  | zero => simp [relaxLoop] at hok
  | succ fuel ih =>
    rw [relaxLoop] at hok ⊢
    cases hp : relaxFrom 0 web height false with
    | none => rw [hp] at hok; simp at hok
    | some r =>
      obtain ⟨h1, c1⟩ := r
      rw [hp] at hok
      simp only at hok ⊢
      cases c1 with
      | true =>
        simp only [if_true] at hok ⊢
        exact ih h1 hok
      | false => exact hok

theorem relaxLoop_mono_le (web : List Org) (fuel fuel1 : Nat) (height h : List Int)
    (hle : fuel ≤ fuel1) (hok : relaxLoop web fuel height = Except.ok h) :
    relaxLoop web fuel1 height = Except.ok h := by
  induction fuel1 with
  | zero =>
    have : fuel = 0 := by omega
    rw [this] at hok
    exact hok
  | succ n ih =>
    by_cases hfn : fuel = n + 1
    · rw [← hfn]; exact hok
    · exact relaxLoop_mono web n height h (ih (by omega))

theorem SolvesHeight.exists_prey_below {web : List Org} {H : Nat → Int}
    (hH : SolvesHeight web H) (p : Nat) (hp : 0 < H p) :
    ∃ q ∈ preyAt web p, H q.toNat = H p - 1 := by
  have hHp := hH p
  by_cases he : preyAt web p = []
  · rw [if_pos he] at hHp
    omega
  · rw [if_neg he] at hHp
    rcases maxList_eq_or_mem ((preyAt web p).map (fun q => H q.toNat)) 0 with h0 | hm
    · obtain ⟨q, hq⟩ := List.exists_mem_of_ne_nil _ he
      refine ⟨q, hq, ?_⟩
      have h1 := mem_le_maxList ((preyAt web p).map (fun q => H q.toNat)) 0 (H q.toNat)
        (List.mem_map.mpr ⟨q, hq, rfl⟩)
      have h2 := hH.nonneg q.toNat
      omega
    · obtain ⟨q, hq, hqv⟩ := List.mem_map.mp hm
      exact ⟨q, hq, by omega⟩

/-- Below a node of height `H p` there is a node of every smaller height. -/
theorem SolvesHeight.exists_node_of_height {web : List Org} {H : Nat → Int}
    (hH : SolvesHeight web H) (hr : InRange web) (p : Nat) (hp : p < web.length) (d : Nat) :
    (d : Int) ≤ H p → ∃ r, r < web.length ∧ H r = H p - (d : Int) := by
  induction d with
  | zero => exact fun _ => ⟨p, hp, by simp⟩
  | succ d ih =>
    intro hd
    obtain ⟨r, hr1, hr2⟩ := ih (by push_cast at hd; omega)
    obtain ⟨q, hq, hqv⟩ := hH.exists_prey_below r (by push_cast at hd; omega)
    have hin := hr r hr1 q hq
    exact ⟨q.toNat, by omega, by push_cast; omega⟩

/-- On a web of `n` nodes the recursive height of a node is at most `n - 1`. -/
theorem SolvesHeight.lt_length {web : List Org} {H : Nat → Int} (hH : SolvesHeight web H)
    (hr : InRange web) (p : Nat) (hp : p < web.length) : H p < (web.length : Int) := by
  by_contra hc
  have hex : ∀ v : Fin (web.length + 1), ∃ r, r < web.length ∧ H r = H p - (v.val : Int) :=
    fun v => hH.exists_node_of_height hr p hp v.val (by have := v.isLt; omega)
  let f : Fin (web.length + 1) → Fin web.length :=
    fun v => ⟨Classical.choose (hex v), (Classical.choose_spec (hex v)).1⟩
  have hf : Function.Injective f := by
    intro v w hvw
    have hv := (Classical.choose_spec (hex v)).2
    have hw := (Classical.choose_spec (hex w)).2
    have heq : Classical.choose (hex v) = Classical.choose (hex w) := congrArg Fin.val hvw
    rw [heq] at hv
    apply Fin.ext
    omega
  have := Fintype.card_le_of_injective f hf
  simp only [Fintype.card_fin] at this
  omega

theorem maxList_mono (prey : List Int) (f g : Int → Int) (m m1 : Int) (hm : m ≤ m1)
    (h : ∀ q ∈ prey, f q ≤ g q) : maxList (prey.map f) m ≤ maxList (prey.map g) m1 := by
  induction prey generalizing m m1 with
  | nil => exact hm
  | cons q rest ih =>
    simp only [List.map_cons, maxList, List.foldl_cons]
    exact ih (max m (f q)) (max m1 (g q))
      (max_le_max hm (h q (List.mem_cons_self _ _)))
      (fun x hx => h x (List.mem_cons_of_mem _ hx))

/-- A pass started from heights between 0 and the recursive heights writes only such
heights: with `SolvesHeight.lt_length`, no height the loop computes on an acyclic web
leaves the range from 0 to `n - 1`. -/
theorem relaxFrom_below {web : List Org} {H : Nat → Int} (hH : SolvesHeight web H)
    (hr : InRange web) (height : List Int) (change : Bool)
    (hlen : height.length = web.length) (hb : Below web H height) :
    ∃ h1 c1, relaxFrom 0 web height change = some (h1, c1) ∧ h1.length = web.length ∧
      Below web H h1 := by
  obtain ⟨h1, c1, he, hl, hP⟩ := relaxFrom_inv web hr (fun _ h _ => Below web H h)
    (by
      intro t h c ht hlen1 hP
      have hnew : newHeightOf web h t ≤ H t := by
        rw [hH t]
        unfold newHeightOf
        by_cases he : preyAt web t = []
        · rw [if_pos he, if_pos he]
        · rw [if_neg he, if_neg he]
          have := maxList_mono (preyAt web t) (valAt h) (fun q => H q.toNat) 0 0 (le_refl 0)
            (by
              intro q hq
              have hin := hr t ht q hq
              obtain ⟨v, hv, _, hv2⟩ := hP q.toNat (by omega)
              rw [(valAt_of_getElem? hin.1 hv).2]
              exact hv2)
          omega
      intro j hj
      by_cases hjt : t = j
      · subst hjt
        exact ⟨_, List.getElem?_set_self (by omega), newHeightOf_nonneg web h t, hnew⟩
      · rw [List.getElem?_set_ne hjt]
        exact hP j hj)
    web 0 height change rfl (Nat.zero_le _) hlen hb
  exact ⟨h1, c1, he, hl, hP⟩

theorem below_replicate {web : List Org} {H : Nat → Int} (hH : SolvesHeight web H) :
    Below web H (List.replicate web.length 0) :=
  fun j hj => ⟨0, by simp [List.getElem?_replicate, hj], le_refl 0, hH.nonneg j⟩

/-- On an acyclic web with prey indices in range `calculateHeights` returns, given
enough passes. -/
theorem calculateHeights_terminates (web : List Org) (hr : InRange web) (hac : Acyclic web) :
    ∃ fuel h, calculateHeights fuel web = Except.ok h := by
  obtain ⟨H, hH⟩ := exists_height web hr hac
  obtain ⟨B, hB⟩ := exists_bound web.length H
  obtain ⟨h, hok⟩ := relaxLoop_terminates hH hr B hB (B + 1) 0
    (List.replicate web.length 0) (List.length_replicate _ _)
    (fun j _ hlt => absurd (hH.nonneg j) (by push_cast at hlt; omega)) (by omega) (by omega)
  exact ⟨B + 1, h, hok⟩

/-- On an acyclic web of `n` nodes with prey indices in range, `n + 1` passes are enough
for `calculateHeights` to return. -/
theorem calculateHeights_terminates_within (web : List Org) (hr : InRange web)
    (hac : Acyclic web) : ∃ h, calculateHeights (web.length + 1) web = Except.ok h := by
  obtain ⟨H, hH⟩ := exists_height web hr hac
  exact relaxLoop_terminates hH hr web.length (fun j hj => hH.lt_length hr j hj)
    (web.length + 1) 0 (List.replicate web.length 0) (List.length_replicate _ _)
    (fun j _ hlt => absurd (hH.nonneg j) (by push_cast at hlt; omega)) (by omega) (by omega)

/-- The result of `calculateHeights` does not depend on the passes allowed. -/
theorem calculateHeights_unique (web : List Org) (fuel fuel1 : Nat) (h h1 : List Int)
    (hok : calculateHeights fuel web = Except.ok h)
    (hok1 : calculateHeights fuel1 web = Except.ok h1) : h1 = h := by
  unfold calculateHeights at hok hok1
  have a := relaxLoop_mono_le web fuel (max fuel fuel1) _ h (le_max_left _ _) hok
  have b := relaxLoop_mono_le web fuel1 (max fuel fuel1) _ h1 (le_max_right _ _) hok1
  rw [a] at b
  exact (Except.ok.inj b).symm

theorem acyclic_foxRabbitGrass : Acyclic foxRabbitGrass := by
  apply acyclic_of_rank foxRabbitGrass (fun p => 3 - p)
  intro p q h
  unfold Eats preyAt foxRabbitGrass at h
  match p, h with
  | 0, h => simp at h; omega
  | 1, h => simp at h; omega
  | 2, h => simp at h
  | p + 3, h => simp at h

theorem not_acyclic_twoCycle : ¬ Acyclic twoCycle := by
  intro hac
  have h01 : Eats twoCycle 0 1 := by unfold Eats; decide
  have h10 : Eats twoCycle 1 0 := by unfold Eats; decide
  exact hac 0 (Relation.TransGen.tail (Relation.TransGen.single h01) h10)

/-! ## Heights -/

/-- C11: on a well-formed acyclic web of `n` nodes `calculateHeights` returns, when
allowed `n + 1` passes or more, an array that meets the recursive definition at every
node: height 0 for a node without prey, and otherwise one more than the greatest height
among its prey (every prey is at least one lower, and some prey is exactly one lower). -/
theorem calculateHeights_recursive (web : List Org) (hwf : WellFormed web)
    (hac : Acyclic web) :
    ∃ h, (∀ fuel, web.length + 1 ≤ fuel → calculateHeights fuel web = Except.ok h) ∧
      h.length = web.length ∧
      ∀ p, p < web.length →
        (preyAt web p = [] → h[p]? = some 0) ∧
        (preyAt web p ≠ [] →
          ∃ hp, h[p]? = some hp ∧
            (∀ q ∈ preyAt web p, ∃ hq, getAt h q = some hq ∧ hq + 1 ≤ hp) ∧
            (∃ q ∈ preyAt web p, getAt h q = some (hp - 1))) := by
  obtain ⟨h, hok⟩ := calculateHeights_terminates_within web hwf.inRange hac
  have hfix : IsFixed web h :=
    relaxLoop_ok_fixed web hwf.inRange _ _ h (List.length_replicate _ _) hok
  exact ⟨h, fun fuel hle => relaxLoop_mono_le web _ fuel _ h hle hok, hfix.1,
    fun p hp => hfix.heightAt hwf.inRange p hp⟩

theorem calculateHeights_recursive_witness :
    WellFormed foxRabbitGrass ∧ Acyclic foxRabbitGrass ∧
    ∃ h, (∀ fuel, foxRabbitGrass.length + 1 ≤ fuel →
        calculateHeights fuel foxRabbitGrass = Except.ok h) ∧
      h.length = foxRabbitGrass.length ∧
      ∀ p, p < foxRabbitGrass.length →
        (preyAt foxRabbitGrass p = [] → h[p]? = some 0) ∧
        (preyAt foxRabbitGrass p ≠ [] →
          ∃ hp, h[p]? = some hp ∧
            (∀ q ∈ preyAt foxRabbitGrass p, ∃ hq, getAt h q = some hq ∧ hq + 1 ≤ hp) ∧
            (∃ q ∈ preyAt foxRabbitGrass p, getAt h q = some (hp - 1))) :=
  ⟨by decide, acyclic_foxRabbitGrass,
    calculateHeights_recursive foxRabbitGrass (by decide) acyclic_foxRabbitGrass⟩

/-- C12, as the claim states it, fails: on the well-formed web in which A eats B and B
eats A, every pass of `calculateHeights` rewrites a height, so the loop never returns
however many passes it is allowed. -/
theorem calculateHeights_twoCycle_diverges :
    WellFormed twoCycle ∧
    ∀ fuel, calculateHeights fuel twoCycle = Except.error Fault.outOfFuel := by
  have hwf : WellFormed twoCycle := by decide
  refine ⟨hwf, fun fuel => ?_⟩
  cases hres : calculateHeights fuel twoCycle with
  | ok h =>
    have hfix : IsFixed twoCycle h :=
      relaxLoop_ok_fixed twoCycle hwf.inRange fuel _ h (List.length_replicate _ _) hres
    exact absurd (hfix.acyclic hwf.inRange) not_acyclic_twoCycle
  | error e =>
    cases e with
    | outOfFuel => rfl
    | outOfBounds =>
      exact absurd hres
        (relaxLoop_ne_outOfBounds twoCycle hwf.inRange fuel _ (List.length_replicate _ _))

/-- An array that the relaxation rule leaves as it is at every node is a fixed point. -/
theorem isFixed_of_newHeight (web : List Org) (hr : InRange web) (h : List Int)
    (hlen : h.length = web.length)
    (hrule : ∀ j, j < web.length → newHeight h (preyAt web j) = h[j]?) : IsFixed web h := by
  refine ⟨hlen, fun j hj => ?_⟩
  have := hrule j hj
  rw [newHeight_eq web h j hr hlen] at this
  rw [← this]
  rfl

/-- On a web with a cycle and prey indices in range `calculateHeights` runs out of fuel,
whatever the fuel. -/
theorem calculateHeights_outOfFuel (web : List Org) (hr : InRange web)
    (hcyc : ¬ Acyclic web) (fuel : Nat) :
    calculateHeights fuel web = Except.error Fault.outOfFuel := by
  cases hres : calculateHeights fuel web with
  | ok h =>
    exact absurd
      ((relaxLoop_ok_fixed web hr fuel _ h (List.length_replicate _ _) hres).acyclic hr) hcyc
  | error e =>
    cases e with
    | outOfFuel => rfl
    | outOfBounds =>
      exact absurd hres (relaxLoop_ne_outOfBounds web hr fuel _ (List.length_replicate _ _))

/-- C12, amended: on a well-formed web the relaxation loop of `calculateHeights` reaches
a pass without change exactly when the web is acyclic; whenever it returns, the heights
are a fixed point of the relaxation rule, a further pass over them changes nothing, and
every run on the same web returns the same heights.  On a well-formed web with a cycle
the relaxation rule has no fixed point at all, no pass from any heights is without
change, and the loop never returns. -/
theorem calculateHeights_fixed_point (web : List Org) (hwf : WellFormed web) :
    ((∃ fuel h, calculateHeights fuel web = Except.ok h) ↔ Acyclic web) ∧
    (∀ fuel h, calculateHeights fuel web = Except.ok h →
      (h.length = web.length ∧
        ∀ j, j < web.length → newHeight h (preyAt web j) = h[j]?) ∧
      relaxFrom 0 web h false = some (h, false) ∧
      ∀ fuel1 h1, calculateHeights fuel1 web = Except.ok h1 → h1 = h) ∧
    (¬ Acyclic web →
      (∀ h : List Int, ¬ (h.length = web.length ∧
        ∀ j, j < web.length → newHeight h (preyAt web j) = h[j]?)) ∧
      (∀ h0 h1 : List Int, h0.length = web.length →
        relaxFrom 0 web h0 false ≠ some (h1, false)) ∧
      (∀ fuel, calculateHeights fuel web = Except.error Fault.outOfFuel)) := by
  have hr := hwf.inRange
  refine ⟨⟨?_, calculateHeights_terminates web hr⟩, ?_, ?_⟩
  · rintro ⟨fuel, h, hok⟩
    exact (relaxLoop_ok_fixed web hr fuel _ h (List.length_replicate _ _) hok).acyclic hr
  · intro fuel h hok
    have hfix := relaxLoop_ok_fixed web hr fuel _ h (List.length_replicate _ _) hok
    refine ⟨⟨hfix.1, fun j hj => ?_⟩, relaxFrom_stable web hr h false hfix,
      fun fuel1 h1 hok1 => calculateHeights_unique web fuel fuel1 h h1 hok hok1⟩
    rw [newHeight_eq web h j hr hfix.1, hfix.getElem? j hj]
  · intro hcyc
    refine ⟨?_, ?_, calculateHeights_outOfFuel web hr hcyc⟩
    · rintro h ⟨hlen, hrule⟩
      exact hcyc ((isFixed_of_newHeight web hr h hlen hrule).acyclic hr)
    · intro h0 h1 hlen he
      exact hcyc ((relaxFrom_nochange web hr h0 h1 hlen he).2.acyclic hr)

theorem calculateHeights_fixed_point_witness :
    (WellFormed foxRabbitGrass ∧
      ((∃ fuel h, calculateHeights fuel foxRabbitGrass = Except.ok h) ↔
        Acyclic foxRabbitGrass) ∧
      (∀ fuel h, calculateHeights fuel foxRabbitGrass = Except.ok h →
        (h.length = foxRabbitGrass.length ∧
          ∀ j, j < foxRabbitGrass.length →
            newHeight h (preyAt foxRabbitGrass j) = h[j]?) ∧
        relaxFrom 0 foxRabbitGrass h false = some (h, false) ∧
        ∀ fuel1 h1, calculateHeights fuel1 foxRabbitGrass = Except.ok h1 → h1 = h)) ∧
    (WellFormed twoCycle ∧ ¬ Acyclic twoCycle ∧
      (∀ h : List Int, ¬ (h.length = twoCycle.length ∧
        ∀ j, j < twoCycle.length → newHeight h (preyAt twoCycle j) = h[j]?)) ∧
      (∀ h0 h1 : List Int, h0.length = twoCycle.length →
        relaxFrom 0 twoCycle h0 false ≠ some (h1, false)) ∧
      (∀ fuel, calculateHeights fuel twoCycle = Except.error Fault.outOfFuel)) :=
  ⟨⟨by decide, (calculateHeights_fixed_point foxRabbitGrass (by decide)).1,
      (calculateHeights_fixed_point foxRabbitGrass (by decide)).2.1⟩,
    ⟨by decide, not_acyclic_twoCycle,
      (calculateHeights_fixed_point twoCycle (by decide)).2.2 not_acyclic_twoCycle⟩⟩

/-- C18: on a well-formed acyclic web of `n` nodes the `while` loop of
`calculateHeights` terminates: from all heights 0, recomputing every node in index order
from the heights updated in place, a full pass produces no change within `n + 1`
passes, and the loop returns the same heights whenever it is allowed that many. -/
theorem calculateHeights_loop_terminates (web : List Org) (hwf : WellFormed web)
    (hac : Acyclic web) :
    ∃ h, calculateHeights (web.length + 1) web = Except.ok h ∧
      relaxFrom 0 web h false = some (h, false) ∧
      ∀ fuel, web.length + 1 ≤ fuel → calculateHeights fuel web = Except.ok h := by
  obtain ⟨h, hok⟩ := calculateHeights_terminates_within web hwf.inRange hac
  have hfix := relaxLoop_ok_fixed web hwf.inRange _ _ h (List.length_replicate _ _) hok
  exact ⟨h, hok, relaxFrom_stable web hwf.inRange h false hfix,
    fun fuel hle => relaxLoop_mono_le web _ fuel _ h hle hok⟩

theorem calculateHeights_loop_terminates_witness :
    WellFormed foxRabbitGrass ∧ Acyclic foxRabbitGrass ∧
    ∃ h, calculateHeights (foxRabbitGrass.length + 1) foxRabbitGrass = Except.ok h ∧
      relaxFrom 0 foxRabbitGrass h false = some (h, false) ∧
      ∀ fuel, foxRabbitGrass.length + 1 ≤ fuel →
        calculateHeights fuel foxRabbitGrass = Except.ok h :=
  ⟨by decide, acyclic_foxRabbitGrass,
    calculateHeights_loop_terminates foxRabbitGrass (by decide) acyclic_foxRabbitGrass⟩

/-- C19: on a web whose prey indices are all in range, no array access through a prey
index in `eatenByCounts`, `calculateHeights` and `printVoreTypes` is out of bounds: the
first and the last return a result, and `calculateHeights` never stops on an access out
of bounds, whatever number of passes it is allowed. -/
theorem analyses_in_bounds (web : List Org) (hr : InRange web) :
    (eatenByCounts web).isSome = true ∧
    (printVoreTypes web).isSome = true ∧
    ∀ fuel, calculateHeights fuel web ≠ Except.error Fault.outOfBounds := by
  refine ⟨?_, ?_, fun fuel => ?_⟩
  · obtain ⟨e, he, _⟩ := eatenByCounts_eq web hr
    rw [he]
    rfl
  · rw [printVoreTypes_eq web hr]
    rfl
  · exact relaxLoop_ne_outOfBounds web hr fuel _ (List.length_replicate _ _)

theorem analyses_in_bounds_witness :
    InRange sampleWeb ∧
    (eatenByCounts sampleWeb).isSome = true ∧
    (printVoreTypes sampleWeb).isSome = true ∧
    ∀ fuel, calculateHeights fuel sampleWeb ≠ Except.error Fault.outOfBounds :=
  ⟨by decide, analyses_in_bounds sampleWeb (by decide)⟩

/-- The access out of bounds is reachable where the index invariant fails. -/
theorem analyses_outOfBounds_reachable :
    eatenByCounts [Org.mk "A" [5]] = none ∧
    printVoreTypes [Org.mk "A" [5]] = none ∧
    calculateHeights 1 [Org.mk "A" [5]] = Except.error Fault.outOfBounds :=
  ⟨rfl, rfl, rfl⟩

/-! ## The scenario and allocation failure -/

/-- C16: the scenario.  Adding Grass, Rabbit, Fox and the relations (1,0) and (2,1) to
the empty web gives heights 0, 1, 2 and the groups Grass producer, Rabbit herbivore, Fox
carnivore.  Removing node 0 leaves Rabbit at 0 without prey and Fox at 1 with prey
sequence [0]; then Rabbit is a producer and Fox a herbivore. -/
theorem scenario_grass_rabbit_fox (m : Malloc) (hm : m.web = true) :
    runOps [] grassRabbitFoxOps
      = [Org.mk "Grass" [], Org.mk "Rabbit" [0], Org.mk "Fox" [1]] ∧
    (∀ fuel, 2 ≤ fuel →
      calculateHeights fuel (runOps [] grassRabbitFoxOps) = Except.ok [0, 1, 2]) ∧
    printVoreTypes (runOps [] grassRabbitFoxOps) = some (VoreTypes.mk [0] [1] [] [2]) ∧
    removeOrgFromWeb m (runOps [] grassRabbitFoxOps) 0
      = (true, [Org.mk "Rabbit" [], Org.mk "Fox" [0]]) ∧
    printVoreTypes (removeOrgFromWeb m (runOps [] grassRabbitFoxOps) 0).2
      = some (VoreTypes.mk [0] [1] [] []) := by
  have hweb : runOps [] grassRabbitFoxOps
      = [Org.mk "Grass" [], Org.mk "Rabbit" [0], Org.mk "Fox" [1]] := by decide
  have hrem : removeOrgFromWeb m [Org.mk "Grass" [], Org.mk "Rabbit" [0], Org.mk "Fox" [1]] 0
      = (true, [Org.mk "Rabbit" [], Org.mk "Fox" [0]]) := by
    rw [removeOrgFromWeb_valid m _ 0 hm (by decide) (by decide)]
    rfl
  rw [hweb, hrem]
  refine ⟨rfl, fun fuel hf => ?_, by decide, rfl, by decide⟩
  exact relaxLoop_mono_le _ 2 fuel _ _ hf rfl

theorem scenario_grass_rabbit_fox_witness :
    runOps [] grassRabbitFoxOps
      = [Org.mk "Grass" [], Org.mk "Rabbit" [0], Org.mk "Fox" [1]] ∧
    (∀ fuel, 2 ≤ fuel →
      calculateHeights fuel (runOps [] grassRabbitFoxOps) = Except.ok [0, 1, 2]) ∧
    printVoreTypes (runOps [] grassRabbitFoxOps) = some (VoreTypes.mk [0] [1] [] [2]) ∧
    removeOrgFromWeb Malloc.zeroed (runOps [] grassRabbitFoxOps) 0
      = (true, [Org.mk "Rabbit" [], Org.mk "Fox" [0]]) ∧
    printVoreTypes (removeOrgFromWeb Malloc.zeroed (runOps [] grassRabbitFoxOps) 0).2
      = some (VoreTypes.mk [0] [1] [] []) :=
  scenario_grass_rabbit_fox Malloc.zeroed rfl

/-- C17 fails on the code.  When `malloc` returns NULL for a rebuilt prey array, the
call still returns true and leaves that node with its old indices next to renumbered
neighbours: Bear keeps [0, 3] in a web of three nodes, where 0 is now Bear itself and 3
is no node at all, so that `eatenByCounts` then writes out of bounds.  When `malloc`
returns NULL for the shrunk `Org` array, the call returns false after the prey sequence
of the node to remove has already been discarded. -/
theorem removeOrgFromWeb_alloc_failure :
    WellFormed bearWeb ∧
    removeOrgFromWeb Malloc.noArr bearWeb 0
      = (true, [Org.mk "Bear" [0, 3], Org.mk "Rabbit" [], Org.mk "Fox" [1]]) ∧
    ¬ InRange (removeOrgFromWeb Malloc.noArr bearWeb 0).2 ∧
    eatenByCounts (removeOrgFromWeb Malloc.noArr bearWeb 0).2 = none ∧
    removeOrgFromWeb Malloc.zeroed bearWeb 0
      = (true, [Org.mk "Bear" [2], Org.mk "Rabbit" [], Org.mk "Fox" [1]]) ∧
    removeOrgFromWeb Malloc.noWeb bearWeb 1
      = (false, [Org.mk "Grass" [], Org.mk "Bear" [], Org.mk "Rabbit" [0],
          Org.mk "Fox" [2]]) ∧
    (removeOrgFromWeb Malloc.noWeb bearWeb 1).2 ≠ bearWeb := by
  refine ⟨by decide, rfl, by decide, rfl, rfl, rfl, by decide⟩

/-! ## The rankings of `displayAll` -/

theorem maxFrom_eq_maxList (counts : List Int) : maxFrom counts = maxList counts 0 := by
  unfold maxFrom maxList
  congr 1
  funext mx c
  by_cases h : c > mx
  · rw [if_pos h, max_eq_right (le_of_lt h)]
  · rw [if_neg h, max_eq_left (not_lt.mp h)]

/-- The entries of an array of natural counts that equal the running maximum from 0 are
the entries that no other entry exceeds. -/
theorem getElem?_eq_maxFrom_iff (cs : List Int) (g : Nat → Nat)
    (hc : ∀ i, i < cs.length → cs[i]? = some (g i : Int)) (i : Nat) (hi : i < cs.length) :
    cs[i]? = some (maxFrom cs) ↔ ∀ j, j < cs.length → g j ≤ g i := by
  rw [maxFrom_eq_maxList, hc i hi]
  have hmem : ∀ j, j < cs.length → (g j : Int) ∈ cs := fun j hj =>
    (List.mem_iff_getElem?).mpr ⟨j, hc j hj⟩
  constructor
  · intro h j hj
    have h1 := mem_le_maxList cs 0 (g j : Int) (hmem j hj)
    simp only [Option.some.injEq] at h
    omega
  · intro h
    have h1 := mem_le_maxList cs 0 (g i : Int) (hmem i hi)
    rcases maxList_eq_or_mem cs 0 with h0 | hm
    · congr 1
      omega
    · obtain ⟨j, hj⟩ := (List.mem_iff_getElem?).mp hm
      have hjl : j < cs.length := (List.getElem?_eq_some.mp hj).1
      rw [hc j hjl] at hj
      simp only [Option.some.injEq] at hj
      have := h j hjl
      congr 1
      omega

theorem exists_max_index (n : Nat) (g : Nat → Nat) (hn : 0 < n) :
    ∃ i, i < n ∧ ∀ j, j < n → g j ≤ g i := by
  induction n with
  | zero => omega
  | succ n ih =>
    by_cases h0 : n = 0
    · subst h0
      exact ⟨0, by omega, fun j hj => by have : j = 0 := by omega
                                         rw [this]⟩
    · obtain ⟨i, hi, hmax⟩ := ih (by omega)
      by_cases hg : g i ≤ g n
      · refine ⟨n, by omega, fun j hj => ?_⟩
        by_cases hjn : j = n
        · rw [hjn]
        · exact le_trans (hmax j (by omega)) hg
      · refine ⟨i, by omega, fun j hj => ?_⟩
        by_cases hjn : j = n
        · rw [hjn]; omega
        · exact hmax j (by omega)

theorem pairwise_filter_range (n : Nat) (f : Nat → Bool) :
    ((List.range n).filter f).Pairwise (fun a b => a < b) :=
  List.Pairwise.filter f (List.pairwise_lt_range n)

theorem fanIn_eq_zero (web : List Org) (i : Nat) (h : ∀ o ∈ web, o.prey = []) :
    fanIn web i = 0 := by
  induction web with
  | nil => rfl
  | cons o rest ih =>
    have ih1 := ih (fun x hx => h x (List.mem_cons_of_mem _ hx))
    unfold fanIn at ih1 ⊢
    rw [List.map_cons, List.sum_cons, ih1, h o (List.mem_cons_self _ _)]
    rfl

theorem preyAt_nil_all {web : List Org} (h : ∀ p, p < web.length → preyAt web p = []) :
    ∀ o ∈ web, o.prey = [] := by
  intro o ho
  obtain ⟨p, hp, rfl⟩ := List.getElem_of_mem ho
  have := h p hp
  unfold preyAt at this
  rw [List.getElem?_eq_getElem hp] at this
  exact this

theorem getElem?_numPrey (web : List Org) (i : Nat) (hi : i < web.length) :
    (web.map (fun o => (o.prey.length : Int)))[i]? = some ((preyAt web i).length : Int) := by
  unfold preyAt
  rw [List.getElem?_map, List.getElem?_eq_getElem hi]
  rfl

/-- C20: on a well-formed web the lists of `displayAll` are these.  Apex Predators: the
nodes of fan-in 0.  Tastiest Food: the nodes whose fan-in no node exceeds.  Most
Flexible Eaters: the nodes whose number of prey no node exceeds.  Each list is in
increasing index order; the last two are non-empty on a non-empty web, and on a web
without edges they hold every node.  The fan-in is the entry of `eatenByCounts`. -/
theorem displayAll_rankings (web : List Org) (hwf : WellFormed web) :
    ∃ r eatenBy, displayAll web = some r ∧ eatenByCounts web = some eatenBy ∧
      (∀ i, i < web.length → eatenBy[i]? = some (fanIn web i : Int)) ∧
      (∀ i, i ∈ r.apex ↔ i < web.length ∧ fanIn web i = 0) ∧
      (∀ i, i ∈ r.tastiest ↔
        i < web.length ∧ ∀ j, j < web.length → fanIn web j ≤ fanIn web i) ∧
      (∀ i, i ∈ r.flexible ↔
        i < web.length ∧
          ∀ j, j < web.length → (preyAt web j).length ≤ (preyAt web i).length) ∧
      r.apex.Pairwise (fun a b => a < b) ∧ r.tastiest.Pairwise (fun a b => a < b) ∧
      r.flexible.Pairwise (fun a b => a < b) ∧
      (0 < web.length → r.tastiest ≠ [] ∧ r.flexible ≠ []) ∧
      ((∀ p, p < web.length → preyAt web p = []) →
        r.tastiest = List.range web.length ∧ r.flexible = List.range web.length) := by
  obtain ⟨e, he, hlen, hval⟩ := eatenByCounts_eq web hwf.inRange
  have hnum := getElem?_numPrey web
  have hnlen : (web.map (fun o => (o.prey.length : Int))).length = web.length :=
    List.length_map _ _
  have htaste : ∀ i, i ∈ (List.range web.length).filter (fun i => e[i]? == some (maxFrom e)) ↔
      i < web.length ∧ ∀ j, j < web.length → fanIn web j ≤ fanIn web i := by
    intro i
    rw [List.mem_filter, List.mem_range]
    constructor
    · rintro ⟨hi, hb⟩
      have := (getElem?_eq_maxFrom_iff e (fanIn web) (by rw [hlen]; exact hval) i
        (by omega)).mp (by simpa using hb)
      exact ⟨hi, by rw [hlen] at this; exact this⟩
    · rintro ⟨hi, hmax⟩
      have := (getElem?_eq_maxFrom_iff e (fanIn web) (by rw [hlen]; exact hval) i
        (by omega)).mpr (by rw [hlen]; exact hmax)
      exact ⟨hi, by simpa using this⟩
  have hflex : ∀ i, i ∈ (List.range web.length).filter
      (fun i => (web.map (fun o => (o.prey.length : Int)))[i]?
        == some (maxFrom (web.map (fun o => (o.prey.length : Int))))) ↔
      i < web.length ∧
        ∀ j, j < web.length → (preyAt web j).length ≤ (preyAt web i).length := by
    intro i
    rw [List.mem_filter, List.mem_range]
    constructor
    · rintro ⟨hi, hb⟩
      have := (getElem?_eq_maxFrom_iff _ (fun j => (preyAt web j).length)
        (by rw [hnlen]; exact hnum) i (by omega)).mp (by simpa using hb)
      exact ⟨hi, by rw [hnlen] at this; exact this⟩
    · rintro ⟨hi, hmax⟩
      have := (getElem?_eq_maxFrom_iff _ (fun j => (preyAt web j).length)
        (by rw [hnlen]; exact hnum) i (by omega)).mpr (by rw [hnlen]; exact hmax)
      exact ⟨hi, by simpa using this⟩
  refine ⟨_, e, by unfold displayAll; rw [he], he, hval, ?_, htaste, hflex,
    pairwise_filter_range _ _, pairwise_filter_range _ _, pairwise_filter_range _ _, ?_, ?_⟩
  · intro i
    simp only [List.mem_filter, List.mem_range]
    constructor
    · rintro ⟨hi, hb⟩
      rw [hval i hi] at hb
      exact ⟨hi, by simpa using hb⟩
    · rintro ⟨hi, hz⟩
      refine ⟨hi, ?_⟩
      rw [hval i hi, hz]
      rfl
  · intro hpos
    constructor
    · obtain ⟨i, hi, hmax⟩ := exists_max_index web.length (fanIn web) hpos
      exact List.ne_nil_of_mem ((htaste i).mpr ⟨hi, hmax⟩)
    · obtain ⟨i, hi, hmax⟩ :=
        exists_max_index web.length (fun j => (preyAt web j).length) hpos
      exact List.ne_nil_of_mem ((hflex i).mpr ⟨hi, hmax⟩)
  · intro hnil
    constructor
    · apply List.filter_eq_self.mpr
      intro i hi
      have := (htaste i).mpr ⟨List.mem_range.mp hi, fun j _ => by
        rw [fanIn_eq_zero web j (preyAt_nil_all hnil)]; exact Nat.zero_le _⟩
      exact (List.mem_filter.mp this).2
    · apply List.filter_eq_self.mpr
      intro i hi
      have := (hflex i).mpr ⟨List.mem_range.mp hi, fun j hj => by
        rw [hnil j hj]; exact Nat.zero_le _⟩
      exact (List.mem_filter.mp this).2

theorem displayAll_rankings_witness :
    WellFormed sampleWeb ∧
    ∃ r eatenBy, displayAll sampleWeb = some r ∧ eatenByCounts sampleWeb = some eatenBy ∧
      (∀ i, i < sampleWeb.length → eatenBy[i]? = some (fanIn sampleWeb i : Int)) ∧
      (∀ i, i ∈ r.apex ↔ i < sampleWeb.length ∧ fanIn sampleWeb i = 0) ∧
      (∀ i, i ∈ r.tastiest ↔
        i < sampleWeb.length ∧ ∀ j, j < sampleWeb.length → fanIn sampleWeb j ≤ fanIn sampleWeb i) ∧
      (∀ i, i ∈ r.flexible ↔
        i < sampleWeb.length ∧
          ∀ j, j < sampleWeb.length →
            (preyAt sampleWeb j).length ≤ (preyAt sampleWeb i).length) ∧
      r.apex.Pairwise (fun a b => a < b) ∧ r.tastiest.Pairwise (fun a b => a < b) ∧
      r.flexible.Pairwise (fun a b => a < b) ∧
      (0 < sampleWeb.length → r.tastiest ≠ [] ∧ r.flexible ≠ []) ∧
      ((∀ p, p < sampleWeb.length → preyAt sampleWeb p = []) →
        r.tastiest = List.range sampleWeb.length ∧
        r.flexible = List.range sampleWeb.length) :=
  ⟨by decide, displayAll_rankings sampleWeb (by decide)⟩

/-! ## Insertion followed by removal -/

/-- A node whose prey indices are all below the removed index takes the skip path of the
renumbering pass, whatever the allocator. -/
theorem renumberOrg_skip (index : Int) (alloc : Option (Nat → Int)) (o : Org)
    (h : ∀ e ∈ o.prey, e < index) : renumberOrg index alloc o = o := by
  have hmem : index ∉ o.prey := fun hm => lt_irrefl _ (h index hm)
  have hany : o.prey.any (fun e => decide (e > index)) = false := by
    rw [List.any_eq_false]
    intro e he
    have := h e he
    simp only [gt_iff_lt, decide_eq_true_eq, not_lt]
    omega
  unfold renumberOrg
  simp only [scanPrey_eq, hmem, hany, decide_False, Bool.or_self]
  split
  · rfl
  · simp

theorem renumberLoop_skip (m : Malloc) (index : Int) (i : Nat) (l : List Org)
    (h : ∀ o ∈ l, ∀ e ∈ o.prey, e < index) : renumberLoop m index i l = l := by
  induction l generalizing i with
  | nil => rfl
  | cons o rest ih =>
    rw [renumberLoop, renumberOrg_skip index _ o (h o (List.mem_cons_self _ _)),
      ih (i + 1) (fun x hx => h x (List.mem_cons_of_mem _ hx))]

/-- C23: on a web of `n` nodes whose prey indices are in range, `addOrgToWeb` followed by
`removeOrgFromWeb` of index `n`, with the block for the shrunk array obtained, returns
true and gives back the original web, the empty web included. -/
theorem addOrgToWeb_removeOrgFromWeb (m : Malloc) (web : List Org) (newOrgName : String)
    (hm : m.web = true) (hr : InRange web) :
    removeOrgFromWeb m (addOrgToWeb web newOrgName) (web.length : Int) = (true, web) ∧
    removeOrgFromWeb m (addOrgToWeb [] newOrgName) 0 = (true, []) := by
  have key : removeOrgFromWeb m (addOrgToWeb web newOrgName) (web.length : Int)
      = (true, web) := by
    rw [removeOrgFromWeb_valid m _ _ hm (by omega) (by simp [addOrgToWeb])]
    unfold addOrgToWeb
    rw [Int.toNat_ofNat, List.eraseIdx_append_of_length_le (le_refl _)]
    simp only [Nat.sub_self, List.eraseIdx_cons_zero, List.append_nil]
    rw [renumberLoop_skip m _ 0 web (fun o ho e he => (hr.mem o ho e he).2)]
  refine ⟨key, ?_⟩
  unfold removeOrgFromWeb addOrgToWeb
  simp

theorem addOrgToWeb_removeOrgFromWeb_witness :
    InRange sampleWeb ∧
    removeOrgFromWeb Malloc.zeroed (addOrgToWeb sampleWeb "Deer") (sampleWeb.length : Int)
      = (true, sampleWeb) ∧
    removeOrgFromWeb Malloc.zeroed (addOrgToWeb [] "Deer") 0 = (true, []) :=
  ⟨by decide, addOrgToWeb_removeOrgFromWeb Malloc.zeroed sampleWeb "Deer" rfl (by decide)⟩

/-! ## Edges kept by a removal -/

theorem sum_map_eraseIdx (l : List Org) (f : Org → Nat) (k : Nat) (hk : k < l.length) :
    (l.map f).sum = f l[k] + ((l.eraseIdx k).map f).sum := by
  induction l generalizing k with
  | nil => exact absurd hk (Nat.not_lt_zero _)
  | cons o rest ih =>
    cases k with
    | zero => simp
    | succ k =>
      have hk1 : k < rest.length := by simpa using hk
      simp only [List.map_cons, List.sum_cons, List.eraseIdx_cons_succ,
        List.getElem_cons_succ, ih k hk1]
      omega

theorem length_filterMap_shiftEntry (index : Int) (l : List Int) :
    (l.filterMap (shiftEntry index)).length + l.count index = l.length := by
  rw [← copySurvivors_eq_filterMap]
  exact length_copySurvivors index l

theorem sum_length_shiftOrg (index : Int) (l : List Org) :
    ((l.map (shiftOrg index)).map (fun o => o.prey.length)).sum
      + (l.map (fun o => o.prey.count index)).sum
      = (l.map (fun o => o.prey.length)).sum := by
  induction l with
  | nil => rfl
  | cons o rest ih =>
    have := length_filterMap_shiftEntry index o.prey
    simp only [List.map_cons, List.sum_cons, shiftOrg] at ih ⊢
    omega

theorem shiftEntry_of_ne (index q : Int) (h : q ≠ index) :
    shiftEntry index q = some (newIdx index q) := by
  unfold shiftEntry newIdx
  rw [if_neg h]
  by_cases hgt : q > index
  · rw [if_pos hgt, if_neg (by omega)]
  · rw [if_neg hgt, if_pos (by omega)]

theorem oldPos_newPos (k p : Nat) (h : p ≠ k) : oldPos k (newPos k p) = p := by
  unfold oldPos newPos
  by_cases hlt : p < k
  · rw [if_pos hlt, if_pos hlt]
  · rw [if_neg hlt, if_neg (by omega)]
    omega

/-- C22: for a well-formed web and a valid index, with its allocations obtained,
`removeOrgFromWeb` keeps every edge `(p, q)` with neither end the removed node, as the
edge between the new positions of `p` and `q`; and the number of edges after the removal
is the old number less the fan-out and the fan-in of the removed node. -/
theorem removeOrgFromWeb_keeps_edges (m : Malloc) (web : List Org) (index : Int)
    (hm : m.allOk) (hwf : WellFormed web) (h0 : 0 ≤ index) (hn : index < (web.length : Int)) :
    (∀ (p : Nat) (q : Int), p < web.length → (p : Int) ≠ index → q ∈ preyAt web p →
      q ≠ index →
      (if q < index then q else q - 1)
        ∈ preyAt (removeOrgFromWeb m web index).2 (if (p : Int) < index then p else p - 1)) ∧
    totalEdges (removeOrgFromWeb m web index).2 + (preyAt web index.toNat).length
      + fanIn web index.toNat = totalEdges web ∧
    totalEdges (removeOrgFromWeb m web index).2
      = totalEdges web - (preyAt web index.toNat).length - fanIn web index.toNat := by
  have hk : index.toNat < web.length := by omega
  have hcast : ((index.toNat : Nat) : Int) = index := Int.toNat_of_nonneg h0
  rw [removeOrgFromWeb_wf_eq m web index hm hwf h0 hn]
  simp only
  have hsum : totalEdges ((web.eraseIdx index.toNat).map (shiftOrg index))
      + (preyAt web index.toNat).length + fanIn web index.toNat = totalEdges web := by
    have hself : (web[index.toNat]).prey.count index = 0 := by
      apply List.count_eq_zero_of_not_mem
      intro hmem
      have := (hwf index.toNat hk).1 index (by
        unfold preyAt
        rw [List.getElem?_eq_getElem hk]
        exact hmem)
      omega
    have hout : (preyAt web index.toNat).length = (web[index.toNat]).prey.length := by
      unfold preyAt
      rw [List.getElem?_eq_getElem hk]
    have h1 := sum_map_eraseIdx web (fun o => o.prey.length) index.toNat hk
    have h2 := sum_map_eraseIdx web (fun o => o.prey.count index) index.toNat hk
    have h3 := sum_length_shiftOrg index (web.eraseIdx index.toNat)
    simp only at h1 h2
    unfold totalEdges fanIn
    rw [hcast, h1, h2, hself, hout]
    omega
  refine ⟨?_, hsum, by omega⟩
  intro p q hp hpi hq hqi
  have hpk : p ≠ index.toNat := by omega
  have hpos : (if (p : Int) < index then p else p - 1) = newPos index.toNat p := by
    unfold newPos
    by_cases hlt : (p : Int) < index
    · rw [if_pos hlt, if_pos (by omega)]
    · rw [if_neg hlt, if_neg (by omega)]
  rw [hpos, preyAt_map_shiftOrg, preyAt_eraseIdx, oldPos_newPos _ _ hpk, List.mem_filterMap]
  exact ⟨q, hq, shiftEntry_of_ne index q hqi⟩

theorem removeOrgFromWeb_keeps_edges_witness :
    WellFormed sampleWeb ∧
    (∀ (p : Nat) (q : Int), p < sampleWeb.length → (p : Int) ≠ 1 → q ∈ preyAt sampleWeb p →
      q ≠ 1 →
      (if q < 1 then q else q - 1)
        ∈ preyAt (removeOrgFromWeb Malloc.zeroed sampleWeb 1).2
            (if (p : Int) < 1 then p else p - 1)) ∧
    totalEdges (removeOrgFromWeb Malloc.zeroed sampleWeb 1).2
      + (preyAt sampleWeb (1 : Int).toNat).length + fanIn sampleWeb (1 : Int).toNat
      = totalEdges sampleWeb ∧
    totalEdges (removeOrgFromWeb Malloc.zeroed sampleWeb 1).2
      = totalEdges sampleWeb - (preyAt sampleWeb (1 : Int).toNat).length
          - fanIn sampleWeb (1 : Int).toNat :=
  ⟨by decide, removeOrgFromWeb_keeps_edges Malloc.zeroed sampleWeb 1
    ⟨rfl, fun _ => rfl⟩ (by decide) (by decide) (by decide)⟩

/-! ## Heights and longest chains

A predator-to-prey chain from node `i` is `List.Chain (Eats web) i l`: `i` eats the first
node of `l`, which eats the second, and so on; it has `l.length` edges. -/

/-- The heights of a fixed point of the relaxation rule solve the recursive definition. -/
theorem IsFixed.solves {web : List Org} {h : List Int} (hfix : IsFixed web h)
    (hr : InRange web) : SolvesHeight web (newHeightOf web h) := by
  intro p
  conv_lhs => unfold newHeightOf
  by_cases he : preyAt web p = []
  · rw [if_pos he, if_pos he]
  · rw [if_neg he, if_neg he]
    congr 2
    apply List.map_congr_left
    intro q hq
    exact (hfix.read hr p q hq).2

/-- No chain from a node has more edges than the recursive height of the node. -/
theorem SolvesHeight.chain_length_le {web : List Org} {H : Nat → Int}
    (hH : SolvesHeight web H) (l : List Nat) :
    ∀ i, List.Chain (Eats web) i l → (l.length : Int) ≤ H i := by
  induction l with
  | nil => exact fun i _ => by simpa using hH.nonneg i
  | cons q rest ih =>
    intro i hc
    obtain ⟨hiq, hrest⟩ := List.chain_cons.mp hc
    have h1 := ih q hrest
    have h2 := hH.solves_prey_lt i (q : Int) hiq
    rw [Int.toNat_ofNat] at h2
    simp only [List.length_cons]
    push_cast
    omega

/-- From every node there is a chain with as many edges as its recursive height. -/
theorem SolvesHeight.exists_chain {web : List Org} {H : Nat → Int}
    (hH : SolvesHeight web H) (hr : InRange web) (v : Nat) :
    ∀ i, H i = (v : Int) → ∃ l, List.Chain (Eats web) i l ∧ l.length = v := by
  induction v with
  | zero => exact fun i _ => ⟨[], List.Chain.nil, rfl⟩
  | succ v ih =>
    intro i hi
    obtain ⟨q, hq, hqv⟩ := hH.exists_prey_below i (by rw [hi]; push_cast; omega)
    obtain ⟨l, hl, hlen⟩ := ih q.toNat (by rw [hqv, hi]; push_cast; omega)
    exact ⟨q.toNat :: l, List.Chain.cons (eats_toNat web hr i q hq) hl, by simp [hlen]⟩

/-- C21: on a well-formed acyclic web of `n` nodes the height that `calculateHeights`
assigns to a node is the number of edges of a longest predator-to-prey chain from that
node: some chain has that many edges and none has more.  Every height is at most
`n - 1`, and a node has height 0 exactly when it has no prey. -/
theorem calculateHeights_longest_chain (web : List Org) (hwf : WellFormed web)
    (hac : Acyclic web) :
    ∃ h, (∀ fuel, web.length + 1 ≤ fuel → calculateHeights fuel web = Except.ok h) ∧
      ∀ i, i < web.length → ∃ hi : Nat, h[i]? = some (hi : Int) ∧
        (∃ l, List.Chain (Eats web) i l ∧ l.length = hi) ∧
        (∀ l, List.Chain (Eats web) i l → l.length ≤ hi) ∧
        hi ≤ web.length - 1 ∧
        (hi = 0 ↔ preyAt web i = []) := by
  have hr := hwf.inRange
  obtain ⟨h, hok⟩ := calculateHeights_terminates_within web hr hac
  have hfix : IsFixed web h :=
    relaxLoop_ok_fixed web hr _ _ h (List.length_replicate _ _) hok
  have hH := hfix.solves hr
  refine ⟨h, fun fuel hle => relaxLoop_mono_le web _ fuel _ h hle hok, fun i hi => ?_⟩
  have hnn := newHeightOf_nonneg web h i
  have hcast : (((newHeightOf web h i).toNat : Nat) : Int) = newHeightOf web h i :=
    Int.toNat_of_nonneg hnn
  refine ⟨(newHeightOf web h i).toNat, ?_, ?_, ?_, ?_, ?_⟩
  · rw [hcast]
    exact hfix.getElem? i hi
  · exact hH.exists_chain hr _ i hcast.symm
  · intro l hl
    have := hH.chain_length_le l i hl
    omega
  · have := hH.lt_length hr i hi
    omega
  · constructor
    · intro hz
      by_contra he
      have hpos : 0 < newHeightOf web h i := by
        unfold newHeightOf
        rw [if_neg he]
        have := le_maxList ((preyAt web i).map (valAt h)) 0
        omega
      omega
    · intro he
      have : newHeightOf web h i = 0 := by
        unfold newHeightOf
        rw [if_pos he]
      omega

theorem calculateHeights_longest_chain_witness :
    WellFormed foxRabbitGrass ∧ Acyclic foxRabbitGrass ∧
    ∃ h, (∀ fuel, foxRabbitGrass.length + 1 ≤ fuel →
        calculateHeights fuel foxRabbitGrass = Except.ok h) ∧
      ∀ i, i < foxRabbitGrass.length → ∃ hi : Nat, h[i]? = some (hi : Int) ∧
        (∃ l, List.Chain (Eats foxRabbitGrass) i l ∧ l.length = hi) ∧
        (∀ l, List.Chain (Eats foxRabbitGrass) i l → l.length ≤ hi) ∧
        hi ≤ foxRabbitGrass.length - 1 ∧
        (hi = 0 ↔ preyAt foxRabbitGrass i = []) :=
  ⟨by decide, acyclic_foxRabbitGrass,
    calculateHeights_longest_chain foxRabbitGrass (by decide) acyclic_foxRabbitGrass⟩

end FoodWeb
